import Mathlib

/-!
# Verification of the simple-procmon sampling-and-attribution core

This file gives a shallow embedding, in Lean 4, of the core logic of the
`simple-procmon` repository (a TypeScript process monitor):

* `extractScriptName` and `formatScriptName` from `src/process.ts` — the
  identity extractor.  The TypeScript function tries five JavaScript regular
  expressions in order against the raw command line; we embed each pattern as
  an executable backtracking matcher with the exact leftmost-match,
  greedy-with-backtracking, ordered-alternation semantics of JS regexes.
* the history store of `src/monitor.ts` (`startMonitor`'s per-tick update),
* the pure part of `getProcesses`/`getProcessStats` from `src/process.ts`,
* the alert engine `checkAlerts` from `src/alerts.ts`,
* the tree builder `buildProcessTree`/`flattenTree` from `src/tree.ts`,
* the startup checks of `main` in `src/index.ts` (including JS `parseInt`).

JS numbers are embedded as `Rat` (the values involved are CPU percentages and
memory byte counts; no float rounding is relevant to the claims), timestamps
as `Int`, and fallible lookups as `Option`.
-/

/-! ## Character classes used by the extractor regexes -/

/-- The JS `\s` class restricted to ASCII (space, tab, LF, VT, FF, CR); the
command lines involved are ASCII. -/
def wsJS (c : Char) : Bool :=
  c = ' ' ∨ c = '\t' ∨ c = '\n' ∨ c = '\x0b' ∨ c = '\x0c' ∨ c = '\r'

/-- The class `[^\s"']` of the quoted/drive/unix patterns. -/
def notSQ (c : Char) : Bool :=
  ¬ (wsJS c ∨ c = '"' ∨ c = '\'')

/-- The class `[^\s"'\\/]` of the bare-filename pattern. -/
def classBare (c : Char) : Bool :=
  notSQ c ∧ c ≠ '\\' ∧ c ≠ '/'

/-- The recognized script extensions, in the exact order of the alternation
`py|pyw|js|ts|mjs|cjs|jsx|tsx|rb|php|pl|sh|ps1|bat|cmd` in
`extractScriptName` (src/process.ts line 189).  Order matters: JS regex
alternation takes the first alternative that matches. -/
def exts : List (List Char) :=
  [['p','y'], ['p','y','w'], ['j','s'], ['t','s'], ['m','j','s'], ['c','j','s'],
   ['j','s','x'], ['t','s','x'], ['r','b'], ['p','h','p'], ['p','l'], ['s','h'],
   ['p','s','1'], ['b','a','t'], ['c','m','d']]

/-- `lowerStarts pat cs`: the (lowercase) pattern `pat` matches the start of
`cs` case-insensitively (the regexes carry the `i` flag). -/
def lowerStarts : List Char → List Char → Bool
  | [], _ => true
  | _ :: _, [] => false
  | a :: as, b :: bs => a = b.toLower && lowerStarts as bs

/-- Ordered alternation `(?:py|pyw|…)` with no anchor after it: the first
extension that matches a prefix of `bs` wins; returns the number of input
characters it consumes. -/
def altMatch (bs : List Char) : Option Nat :=
  (exts.find? (fun e => lowerStarts e bs)).map List.length

/-- Exact (anchored) extension match, case-insensitive. -/
def extExact (b : List Char) : Bool :=
  exts.any (fun e => e = b.map Char.toLower)

/-- Split a character list at its last `'.'`: `splitAtLastDot cs = some (a, b)`
iff `cs = a ++ '.' :: b` and `'.' ∉ b`. -/
def splitAtLastDot (cs : List Char) : Option (List Char × List Char) :=
  let r := cs.reverse
  let e := r.takeWhile (· ≠ '.')
  match r.dropWhile (· ≠ '.') with
  | [] => none
  | _ :: a => some (a.reverse, e.reverse)

/-! ## The five patterns of `extractScriptName`

JS backtracking on `[^…]+\.(?:ext…)` inside a run of class characters: the
greedy `+` first grabs the whole run, then gives characters back until a
literal `'.'` followed by an alternation match is found — i.e. the *last*
dot of the run that is followed by a matching extension wins, and at least
one class character must precede that dot. -/

/-- Greedy-with-backtracking search for `[^…]+\.(?:ext…)` inside the class
run `cs`: try the last dot first; on alternation failure move to the previous
dot.  Returns the consumed characters (`prefix ++ '.' :: matched-extension`).
The fuel `cs.length` is always sufficient because each recursive call strictly
shortens the list. -/
def greedyAux : Nat → List Char → Option (List Char)
  | 0, _ => none
  | fuel + 1, cs =>
    match splitAtLastDot cs with
    | none => none
    | some (a, b) =>
      if a = [] then none
      else
        match altMatch b with
        | some k => some (a ++ '.' :: b.take k)
        | none => greedyAux fuel a

def greedy (cs : List Char) : Option (List Char) :=
  greedyAux cs.length cs

/-- Content between a quote pair matches `[^q]+\.(?:ext…)` followed by the
closing quote: it must end in `'.' ++ ext` exactly (the alternation is forced
to the full remainder because the closing quote comes right after). -/
def quotedOK (content : List Char) : Bool :=
  match splitAtLastDot content with
  | none => false
  | some (a, b) => a ≠ [] && extExact b

/-- Patterns 1–2, `"([^"]+\.(?:ext…))"` and the single-quote variant:
leftmost quote pair whose content ends in a recognized extension. -/
def matchQuoted (q : Char) : List Char → Option (List Char)
  | [] => none
  | c :: rest =>
    if c = q then
      let content := rest.takeWhile (· ≠ q)
      if (rest.dropWhile (· ≠ q)) ≠ [] ∧ quotedOK content then some content
      else matchQuoted q rest
    else matchQuoted q rest

/-- Pattern 3 tried at the current position only:
`([A-Za-z]:[\\/][^\s"']+\.(?:ext…))`. -/
def driveHere : List Char → Option (List Char)
  | c1 :: c2 :: c3 :: rest =>
    if c1.isAlpha ∧ c2 = ':' ∧ (c3 = '\\' ∨ c3 = '/') then
      (greedy (rest.takeWhile notSQ)).map (fun consumed => c1 :: c2 :: c3 :: consumed)
    else none
  | _ => none

/-- Pattern 3, leftmost occurrence. -/
def matchDrive : List Char → Option (List Char)
  | [] => none
  | c :: rest =>
    match driveHere (c :: rest) with
    | some r => some r
    | none => matchDrive rest

/-- Pattern 4, `(\/[^\s"']+\.(?:ext…))`, leftmost occurrence. -/
def matchUnix : List Char → Option (List Char)
  | [] => none
  | c :: rest =>
    if c = '/' then
      match greedy (rest.takeWhile notSQ) with
      | some consumed => some ('/' :: consumed)
      | none => matchUnix rest
    else matchUnix rest

/-- Success condition for pattern 5 at a run: `([^\s"'\\/]+\.(?:ext…))`
followed by `(?:\s|$|")`.  A partial alternation match inside the run is
always rejected by the trailing requirement (run characters are neither
whitespace nor `"`), so the consumed text must be the entire run, whose part
after the last dot is exactly a recognized extension; the character following
the run must be whitespace, a double quote, or the end of input. -/
def bareOK (run after : List Char) : Bool :=
  (match splitAtLastDot run with
   | none => false
   | some (a, b) => a ≠ [] && extExact b) &&
  (match after with
   | [] => true
   | c :: _ => wsJS c || c = '"')

/-- Pattern 5, leftmost occurrence. -/
def matchBare : List Char → Option (List Char)
  | [] => none
  | c :: rest =>
    if classBare c then
      let run := c :: rest.takeWhile classBare
      if bareOK run (rest.dropWhile classBare) then some run else matchBare rest
    else matchBare rest

/-- The final `match[1].replace(/["']+$/, '')` cleanup. -/
def stripTrailingQuotes (cs : List Char) : List Char :=
  (cs.reverse.dropWhile (fun c => c = '"' || c = '\'')).reverse

/-- `extractScriptName` from src/process.ts lines 186–213: try the five
patterns in order against the whole command line; return capture group 1 of
the first pattern that matches, with trailing quotes stripped. -/
def extractScriptName (cmd : Option String) : Option String :=
  match cmd with
  | none => none
  | some s =>
    let cs := s.data
    (((((matchQuoted '"' cs).orElse (fun _ => matchQuoted '\'' cs)).orElse
        (fun _ => matchDrive cs)).orElse
        (fun _ => matchUnix cs)).orElse
        (fun _ => matchBare cs)).map
      (fun m => String.mk (stripTrailingQuotes m))

/-- `formatScriptName` from src/process.ts lines 218–227. -/
def formatScriptName (scriptPath : Option String) (maxLength : Nat := 40) : String :=
  match scriptPath with
  | none => ""
  | some s =>
    if s.length ≤ maxLength then s
    else String.mk ('.' :: '.' :: '.' :: (s.data.drop (s.data.length - (maxLength - 3))))

example : extractScriptName (some "C:\\proj\\.venv\\Scripts\\python.exe main.py")
    = some "main.py" := by decide
example : extractScriptName (some "\"C:\\Python39\\python.exe\" K:\\app\\main.py --port 8080")
    = some "K:\\app\\main.py" := by decide
example : extractScriptName (some "K:\\app\\main.pyw") = some "K:\\app\\main.py" := by decide
example : extractScriptName (some "node /srv/app/index.js --x") = some "/srv/app/index.js" := by
  decide
example : extractScriptName (some "'x.py' K:\\app\\main.py") = some "x.py" := by decide
example : extractScriptName none = none := rfl

/-! ## History store (src/monitor.ts, `startMonitor` lines 141–178)

`ProcessHistory` is the HistoryRecord of the spec: created on first sighting
with `samples = 0`, empty windows and zero peaks, then updated once per tick
the process is visible. -/

structure ProcessHistory where
  pid : Nat
  name : String
  cmd : Option String
  samples : Nat
  cpuHistory : List Rat
  memoryHistory : List Rat
  peakMemory : Rat
  peakCPU : Rat
deriving Repr, DecidableEq

/-- `hist.cpuHistory.slice(-100)` bounding from monitor.ts lines 170–177. -/
def boundWindow (l : List Rat) : List Rat :=
  if l.length > 100 then l.drop (l.length - 100) else l

/-- One `hist.samples++; push; peak = max; bound` update (monitor.ts 164–177). -/
def recordSample (h : ProcessHistory) (cpu memoryMB : Rat) : ProcessHistory :=
  { h with
    samples := h.samples + 1
    cpuHistory := boundWindow (h.cpuHistory ++ [cpu])
    memoryHistory := boundWindow (h.memoryHistory ++ [memoryMB])
    peakMemory := max h.peakMemory memoryMB
    peakCPU := max h.peakCPU cpu }

/-! ## Pure part of `getProcesses` (src/process.ts lines 119–157)

`getProcesses` first filters `psList()` output by name, then calls
`getProcessStats` (pidusage) on the filtered pids and maps each filtered
process to a `ProcessInfo`, substituting `stat?.cpu ?? 0` / `stat?.memory ?? 0`
when the provider returned no entry for a pid.  `getProcessStats` returns the
empty record when the whole pidusage call fails, which is the same
missing-entry shape per pid.  We embed the non-Windows path
(`isWindows = false`, so `cmd` comes from ps-list). -/

structure ProcDesc where
  pid : Nat
  ppid : Nat
  name : String
  cmd : Option String
deriving Repr, DecidableEq

structure ProcessStats where
  cpu : Rat
  memory : Rat
deriving Repr, DecidableEq

structure ProcessInfo where
  pid : Nat
  name : String
  cmd : Option String
  cpu : Rat
  memory : Rat
  memoryMB : Rat
deriving Repr, DecidableEq

/-- Case-insensitive substring test, embedding JS
`cmd.toLowerCase().includes(pattern.toLowerCase())`. -/
def containsLower (hay pat : List Char) : Bool :=
  let h := hay.map Char.toLower
  let p := pat.map Char.toLower
  (List.range (h.length + 1)).any (fun i => p.isPrefixOf (h.drop i))

/-- The filter re-applied with the resolved command line
(process.ts lines 125–129); with `filterPattern` absent or `cmd` absent the
entry is kept. -/
def passesCmdFilter (filterPattern : Option String) (cmd : Option String) : Bool :=
  match filterPattern, cmd with
  | some pat, some c => containsLower c.data pat.data
  | _, _ => true

/-- The mapping step of `getProcesses` (process.ts lines 119–139) applied to
the already name-filtered list: look up each pid in the stats record,
defaulting cpu and memory to `0` when the provider has no entry for it, and
drop entries failing the command filter.  No process is dropped for lack of a
stats entry. -/
def getProcessesPure (filtered : List ProcDesc) (stats : Nat → Option ProcessStats)
    (filterPattern : Option String) : List ProcessInfo :=
  filtered.filterMap (fun proc =>
    if passesCmdFilter filterPattern proc.cmd then
      let cpu := ((stats proc.pid).map ProcessStats.cpu).getD 0
      let memory := ((stats proc.pid).map ProcessStats.memory).getD 0
      some { pid := proc.pid, name := proc.name, cmd := proc.cmd,
             cpu := cpu, memory := memory, memoryMB := memory / (1024 * 1024) }
    else none)

/-- Record creation on first sighting (monitor.ts lines 144–161): the display
name is the extracted script name when available, else the process name. -/
def mkHistory (proc : ProcessInfo) : ProcessHistory :=
  { pid := proc.pid
    name := match extractScriptName proc.cmd with
            | some scriptName => formatScriptName (some scriptName) 59
            | none => proc.name
    cmd := proc.cmd
    samples := 0
    cpuHistory := []
    memoryHistory := []
    peakMemory := 0
    peakCPU := 0 }

/-- The per-tick `// Update history` loop of `startMonitor`
(monitor.ts lines 141–178), over the history map `Map<number, ProcessHistory>`
modelled as a lookup function. -/
def tickUpdate (history : Nat → Option ProcessHistory) (procs : List ProcessInfo) :
    Nat → Option ProcessHistory :=
  procs.foldl
    (fun h proc =>
      let cur := (h proc.pid).getD (mkHistory proc)
      fun pid => if pid = proc.pid then some (recordSample cur proc.cpu proc.memoryMB)
                 else h pid)
    history

example :
    (getProcessesPure [{ pid := 1, ppid := 0, name := "python", cmd := none }]
      (fun _ => none) none).map ProcessInfo.cpu = [0] := by decide

/-! ## Alert engine (src/alerts.ts)

`checkAlerts` walks the sampled processes; for each configured threshold kind
with `value > threshold` it consults `activeAlerts` (a map keyed by
`` `cpu-${pid}` `` / `` `memory-${pid}` ``, embedded as `AlertKind × Nat`) and
fires unless a previous firing is recorded whose age is within the 30000 ms
cooldown.  The JS guard is `!lastAlert || now - lastAlert > ALERT_COOLDOWN`:
note `!lastAlert` is JS truthiness, so a recorded timestamp of `0` counts as
absent. -/

inductive AlertKind where
  | cpu
  | memory
deriving Repr, DecidableEq

structure Alert where
  timestamp : Int
  pid : Nat
  name : String
  type : AlertKind
  value : Rat
  threshold : Rat
deriving Repr, DecidableEq

structure AlertConfig where
  cpuThreshold : Option Rat
  memoryThreshold : Option Rat
deriving Repr, DecidableEq

/-- `activeAlerts : Map<string, number>` as a lookup function. -/
def SuppMap : Type := AlertKind × Nat → Option Int

/-- `ALERT_COOLDOWN = 30000`. -/
def ALERT_COOLDOWN : Int := 30000

/-- The firing guard `!lastAlert || now - lastAlert > ALERT_COOLDOWN`
(alerts.ts lines 44 and 64); `!lastAlert` is true when the key is absent
*or* maps to `0` (JS falsiness). -/
def shouldFire (lastAlert : Option Int) (now : Int) : Bool :=
  match lastAlert with
  | none => true
  | some t => t = 0 ∨ now - t > ALERT_COOLDOWN

/-- `displayName = processNames.get(proc.pid) || proc.name` — JS `||`
falls back on the empty string too. -/
def displayNameOf (names : Nat → Option String) (proc : ProcessInfo) : String :=
  match names proc.pid with
  | some s => if s = "" then proc.name else s
  | none => proc.name

/-- State threaded through `checkAlerts`: newly fired alerts (in order), the
suppression map, and the append-only `alertHistory` log. -/
structure AlertState where
  newAlerts : List Alert
  supp : SuppMap
  histLog : List Alert

/-- One threshold branch of the `checkAlerts` loop body (alerts.ts lines
39–57 for `kind = cpu` with `value = proc.cpu`, lines 59–77 for
`kind = memory` with `value = proc.memoryMB`): if the kind is configured, the
value strictly exceeds the threshold, and the suppression guard allows it,
emit an alert, append it to the log, and stamp the suppression map. -/
def checkBranch (kind : AlertKind) (thrOpt : Option Rat) (value : Rat)
    (names : Nat → Option String) (now : Int) (proc : ProcessInfo)
    (st : AlertState) : AlertState :=
  match thrOpt with
  | some thr =>
    if value > thr ∧ shouldFire (st.supp (kind, proc.pid)) now then
      let a : Alert := { timestamp := now, pid := proc.pid,
                         name := displayNameOf names proc, type := kind,
                         value := value, threshold := thr }
      { newAlerts := st.newAlerts ++ [a],
        supp := fun k => if k = (kind, proc.pid) then some now else st.supp k,
        histLog := st.histLog ++ [a] }
    else st
  | none => st

/-- Processing of one process inside the `checkAlerts` loop
(alerts.ts lines 36–78): the CPU branch, then the memory branch. -/
def checkOne (config : AlertConfig) (names : Nat → Option String) (now : Int)
    (st : AlertState) (proc : ProcessInfo) : AlertState :=
  checkBranch AlertKind.memory config.memoryThreshold proc.memoryMB names now proc
    (checkBranch AlertKind.cpu config.cpuThreshold proc.cpu names now proc st)

/-- `checkAlerts` (alerts.ts lines 28–81): returns the newly fired alerts and
the updated cross-call state. -/
def checkAlerts (processes : List ProcessInfo) (config : AlertConfig)
    (names : Nat → Option String) (now : Int) (supp : SuppMap) (histLog : List Alert) :
    AlertState :=
  processes.foldl (checkOne config names now) { newAlerts := [], supp := supp, histLog := histLog }

def procA : ProcessInfo :=
  { pid := 7, name := "python", cmd := none, cpu := 85, memory := 0, memoryMB := 0 }

def cfgCpu80 : AlertConfig := { cpuThreshold := some 80, memoryThreshold := none }

example :
    ((checkAlerts [procA] cfgCpu80 (fun _ => none) 0 (fun _ => none) []).newAlerts).length
      = 1 := by decide
example :
    (checkAlerts [procA] cfgCpu80 (fun _ => none) 10000
      ((checkAlerts [procA] cfgCpu80 (fun _ => none) 0 (fun _ => none) []).supp)
      []).newAlerts.length = 1 := by decide
example :
    (checkAlerts [procA] cfgCpu80 (fun _ => none) 11000
      ((checkAlerts [procA] cfgCpu80 (fun _ => none) 1000 (fun _ => none) []).supp)
      []).newAlerts.length = 0 := by decide

/-! ## Tree builder (src/tree.ts, `buildProcessTree` and `flattenTree`)

`buildProcessTree` makes a node per filtered process, links each node to the
node whose pid equals its ppid (the ppid is looked up in the full `psList()`
table, defaulting to `0`), makes nodes without a present parent forest roots,
and stably sorts every children list and the root list by descending CPU
(JS `Array.prototype.sort` is stable, comparator `(a, b) => b.cpu - a.cpu`).
`flattenTree` then re-derives every `depth` during the pre-order walk.

The recursion is fuelled (`procs.length` suffices for every node reachable
from a root when pids are distinct); a fuel-exhausted node gets an empty
children list, which only affects parent-id cycles that the JS traversal
never reaches from any root. -/

structure PsDesc where
  pid : Nat
  ppid : Nat
  name : String
deriving Repr, DecidableEq

inductive TreeNode where
  | mk (pid ppid : Nat) (name : String) (cpu memoryMB : Rat)
       (children : List TreeNode) (depth : Nat)
deriving Repr

def TreeNode.pid : TreeNode → Nat
  | .mk p _ _ _ _ _ _ => p

def TreeNode.ppid : TreeNode → Nat
  | .mk _ pp _ _ _ _ _ => pp

def TreeNode.name : TreeNode → String
  | .mk _ _ n _ _ _ _ => n

def TreeNode.cpu : TreeNode → Rat
  | .mk _ _ _ c _ _ _ => c

def TreeNode.memoryMB : TreeNode → Rat
  | .mk _ _ _ _ m _ _ => m

def TreeNode.children : TreeNode → List TreeNode
  | .mk _ _ _ _ _ cs _ => cs

def TreeNode.depth : TreeNode → Nat
  | .mk _ _ _ _ _ _ d => d

/-- `allProcessMap.get(pid)?.ppid ?? 0` — the JS `Map` keeps the last entry
for a duplicated key, hence the reversed search. -/
def ppidOf (allProcesses : List PsDesc) (pid : Nat) : Nat :=
  ((allProcesses.reverse.find? (fun d => d.pid = pid)).map PsDesc.ppid).getD 0

/-- Stable insertion step for the comparator `(a, b) => b.cpu - a.cpu`:
an element moves left past strictly smaller CPU values only, so elements with
equal CPU keep their relative order. -/
def insertDesc (x : TreeNode) : List TreeNode → List TreeNode
  | [] => [x]
  | y :: ys => if x.cpu < y.cpu then y :: insertDesc x ys else x :: y :: ys

/-- Stable sort by descending CPU; extensionally equal to JS
`array.sort((a, b) => b.cpu - a.cpu)` (which is stable). -/
def sortDesc : List TreeNode → List TreeNode
  | [] => []
  | x :: xs => insertDesc x (sortDesc xs)

/-- The children of the node for `pid`, in discovery order: the linking loop
(tree.ts lines 306–315) appends each node to the children of the node its
ppid points at, iterating nodes in insertion order. -/
def childProcs (procs : List ProcessInfo) (allProcesses : List PsDesc) (pid : Nat) :
    List ProcessInfo :=
  procs.filter (fun q => ppidOf allProcesses q.pid = pid)

/-- The processes that become forest roots, in discovery order: those whose
ppid is not the pid of any node in the filtered set. -/
def rootProcs (procs : List ProcessInfo) (allProcesses : List PsDesc) :
    List ProcessInfo :=
  procs.filter (fun p => ¬ (procs.map ProcessInfo.pid).contains (ppidOf allProcesses p.pid))

/-- Display name used for tree nodes (tree.ts lines 286–289). -/
def treeDisplayName (proc : ProcessInfo) : String :=
  match extractScriptName proc.cmd with
  | some scriptName => formatScriptName (some scriptName) 55
  | none => proc.name

/-- Build the node of one process together with its (recursively built,
stably CPU-sorted) children. -/
def buildNode (procs : List ProcessInfo) (allProcesses : List PsDesc) :
    Nat → ProcessInfo → TreeNode
  | 0, p =>
    .mk p.pid (ppidOf allProcesses p.pid) (treeDisplayName p) p.cpu p.memoryMB [] 0
  | fuel + 1, p =>
    .mk p.pid (ppidOf allProcesses p.pid) (treeDisplayName p) p.cpu p.memoryMB
      (sortDesc ((childProcs procs allProcesses p.pid).map (buildNode procs allProcesses fuel)))
      0

/-- `buildProcessTree` (tree.ts lines 265–333). -/
def buildProcessTree (procs : List ProcessInfo) (allProcesses : List PsDesc) :
    List TreeNode :=
  sortDesc ((rootProcs procs allProcesses).map (buildNode procs allProcesses procs.length))

/-- `flattenTree` assigns `depth` during the walk (tree.ts lines 341–347);
the assignment mutates the nodes, so children carry their final depth too. -/
def setDepths : TreeNode → Nat → TreeNode
  | .mk pid ppid name cpu mem children _, d =>
    .mk pid ppid name cpu mem (children.attach.map (fun c => setDepths c.1 (d + 1))) d
termination_by n _ => sizeOf n
decreasing_by
  have := List.sizeOf_lt_of_mem c.2
  simp only [TreeNode.mk.sizeOf_spec]
  omega

/-- Pre-order listing of a tree. -/
def preorder : TreeNode → List TreeNode
  | .mk pid ppid name cpu mem children depth =>
    .mk pid ppid name cpu mem children depth ::
      children.attach.flatMap (fun c => preorder c.1)
termination_by n => sizeOf n
decreasing_by
  have := List.sizeOf_lt_of_mem c.2
  simp only [TreeNode.mk.sizeOf_spec]
  omega

/-- `flattenTree` (tree.ts lines 338–354): pre-order, depth-first, with
depths re-derived from the traversal (roots at 0, children at parent + 1). -/
def flattenTree (roots : List TreeNode) : List TreeNode :=
  (roots.map (fun r => setDepths r 0)).flatMap preorder

/-! ## Startup checks (src/index.ts, `main`)

`main` first does `parseInt(options.interval, 10)` and exits with status 1
when the result is NaN or below 100, before looking at any other option and
before any monitoring state exists.  We embed JS `parseInt(s, 10)`
(leading-whitespace skip, optional sign, maximal digit run, NaN when no
digit) and `main`'s branching up to the dispatch into trace or monitor
mode. -/

def digitVal (c : Char) : Nat := c.toNat - '0'.toNat

def natOfDigits (ds : List Char) : Nat :=
  ds.foldl (fun acc c => acc * 10 + digitVal c) 0

/-- JS `parseInt(s, 10)`: returns `none` for NaN. -/
def parseIntJS (s : String) : Option Int :=
  let cs := s.data.dropWhile wsJS
  let signed : Bool × List Char :=
    match cs with
    | '-' :: rest => (true, rest)
    | '+' :: rest => (false, rest)
    | rest => (false, rest)
  let digits := signed.2.takeWhile Char.isDigit
  if digits = [] then none
  else some (if signed.1 then -(natOfDigits digits : Int) else (natOfDigits digits : Int))

/-- The parsed CLI options of index.ts (second, full variant of the file):
every value commander hands to `main` is a string or flag. -/
structure CliOptions where
  processType : Option String
  trace : Option String
  filter : Option String
  interval : String
  exportOnExit : Bool
  web : Option String
  tree : Bool
  alertCpu : Option String
  alertMemory : Option String
  docker : Bool

/-- What `selectProcess()` (interactive mode) would return; external input. -/
structure Selection where
  processType : String
  processNames : List String
  filterPattern : Option String
  dockerMode : Bool

structure MonitorConfig where
  processType : String
  processNames : List String
  filterPattern : Option String
  interval : Int
  exportOnExit : Bool
  treeView : Bool
deriving Repr, DecidableEq

/-- The possible outcomes of `main` before the monitoring loop starts:
an error exit with a status code, a clean exit (interactive mode aborted),
entering trace mode, or entering the monitoring loop with a configuration.
Only the last two create any monitoring state. -/
inductive MainAction where
  | exitError (code : Nat)
  | exitOk
  | runTrace (pid : Int) (interval : Int) (exportOnExit : Bool)
  | runMonitor (cfg : MonitorConfig)
deriving Repr, DecidableEq

/-- `getProcessNames` from src/prompts.ts is external to the sources given;
for `main`'s control flow only its existence matters. -/
def getProcessNames (processType : String) : List String := [processType]

/-- `main` from src/index.ts lines 107–176, up to the dispatch into
`startTrace`/`startMonitor`.  `selection` stands for the result of the
interactive `selectProcess()` call (`none` = user aborted).  JS truthiness:
`if (options.trace)` is false for an empty string. -/
def mainDecision (opts : CliOptions) (selection : Option Selection) : MainAction :=
  match parseIntJS opts.interval with
  | none => .exitError 1
  | some interval =>
    if interval < 100 then .exitError 1
    else
      match opts.trace with
      | some t =>
        if t = "" then mainMonitorPath opts selection interval
        else
          match parseIntJS t with
          | none => .exitError 1
          | some pid => .runTrace pid interval opts.exportOnExit
      | none => mainMonitorPath opts selection interval
where
  mainMonitorPath (opts : CliOptions) (selection : Option Selection) (interval : Int) :
      MainAction :=
    match opts.processType with
    | some pt =>
      if pt = "" then mainInteractive opts selection interval
      else .runMonitor { processType := pt, processNames := getProcessNames pt,
                         filterPattern := opts.filter, interval := interval,
                         exportOnExit := opts.exportOnExit, treeView := opts.tree }
    | none => mainInteractive opts selection interval
  mainInteractive (opts : CliOptions) (selection : Option Selection) (interval : Int) :
      MainAction :=
    match selection with
    | none => .exitOk
    | some sel =>
      .runMonitor { processType := sel.processType, processNames := sel.processNames,
                    filterPattern := sel.filterPattern, interval := interval,
                    exportOnExit := opts.exportOnExit, treeView := opts.tree }

example : parseIntJS "2000" = some 2000 := by decide
example : parseIntJS "  -50x" = some (-50) := by decide
example : parseIntJS "abc" = none := by decide

/-! ## History-store lemmas -/

/-- Feeding a sequence of (cpu, memoryMB) samples to one HistoryRecord. -/
def runSamples (h : ProcessHistory) (xs : List (Rat × Rat)) : ProcessHistory :=
  xs.foldl (fun h x => recordSample h x.1 x.2) h

/-- The last `n` entries of a list. -/
def lastN (n : Nat) (l : List α) : List α := l.drop (l.length - n)

theorem runSamples_append (h : ProcessHistory) (xs : List (Rat × Rat)) (x : Rat × Rat) :
    runSamples h (xs ++ [x]) = recordSample (runSamples h xs) x.1 x.2 := by
  simp [runSamples]

theorem lastN_length (n : Nat) (l : List α) : (lastN n l).length = min n l.length := by
  simp [lastN]; omega

theorem boundWindow_lastN (l : List Rat) (a : Rat) :
    boundWindow (lastN 100 l ++ [a]) = lastN 100 (l ++ [a]) := by
  have hlen : (lastN 100 l).length = min 100 l.length := lastN_length 100 l
  by_cases h : l.length ≤ 99
  · have h1 : lastN 100 l = l := by
      unfold lastN
      rw [Nat.sub_eq_zero_of_le (by omega)]
      exact List.drop_zero l
    rw [h1]
    have h2 : boundWindow (l ++ [a]) = l ++ [a] := by
      unfold boundWindow
      rw [if_neg (by simp; omega)]
    have h3 : lastN 100 (l ++ [a]) = l ++ [a] := by
      unfold lastN
      rw [Nat.sub_eq_zero_of_le (by simp; omega)]
      exact List.drop_zero _
    rw [h2, h3]
  · -- l.length ≥ 100: the append overflows and the oldest entry is evicted
    have h2 : (lastN 100 l ++ [a]).length = 101 := by simp [hlen]; omega
    have h3 : boundWindow (lastN 100 l ++ [a]) = (lastN 100 l ++ [a]).drop 1 := by
      unfold boundWindow
      rw [if_pos (by omega), h2]
    rw [h3]
    have h4 : (lastN 100 l ++ [a]).drop 1 = (lastN 100 l).drop 1 ++ [a] := by
      refine List.drop_append_of_le_length ?_
      omega
    have h5 : (lastN 100 l).drop 1 = l.drop (l.length - 99) := by
      unfold lastN
      rw [List.drop_drop]
      congr 1
      omega
    have h6 : lastN 100 (l ++ [a]) = l.drop (l.length - 99) ++ [a] := by
      unfold lastN
      rw [List.drop_append_of_le_length (by simp)]
      have he : (l ++ [a]).length - 100 = l.length - 99 := by simp
      rw [he]
    rw [h4, h5, h6]

/-- Core invariant of the per-record update: starting from an empty record,
the windows hold exactly the last 100 submitted values in submission order,
`samples` counts every submission, and the peaks fold `max` over every
submitted value starting at the creation value `0`. -/
theorem runSamples_spec (proc : ProcessInfo) (xs : List (Rat × Rat)) :
    (runSamples (mkHistory proc) xs).cpuHistory = lastN 100 (xs.map Prod.fst) ∧
    (runSamples (mkHistory proc) xs).memoryHistory = lastN 100 (xs.map Prod.snd) ∧
    (runSamples (mkHistory proc) xs).samples = xs.length ∧
    (runSamples (mkHistory proc) xs).peakCPU = (xs.map Prod.fst).foldl max 0 ∧
    (runSamples (mkHistory proc) xs).peakMemory = (xs.map Prod.snd).foldl max 0 := by
  induction xs using List.reverseRecOn with
  | nil => simp [runSamples, mkHistory, lastN]
  | append_singleton ys y ih =>
    obtain ⟨h1, h2, h3, h4, h5⟩ := ih
    rw [runSamples_append]
    refine ⟨?_, ?_, ?_, ?_, ?_⟩
    · simp [recordSample, h1, boundWindow_lastN]
    · simp [recordSample, h2, boundWindow_lastN]
    · simp [recordSample, h3]
    · simp [recordSample, h4]
    · simp [recordSample, h5]

theorem foldl_max_init_le {α : Type} [LinearOrder α] (l : List α) (a : α) :
    a ≤ l.foldl max a := by
  induction l generalizing a with
  | nil => simp
  | cons x xs ih => simpa using le_trans (le_max_left a x) (ih (max a x))

theorem mem_le_foldl_max {α : Type} [LinearOrder α] (l : List α) (a v : α) (hv : v ∈ l) :
    v ≤ l.foldl max a := by
  induction l generalizing a with
  | nil => cases hv
  | cons x xs ih =>
    rcases List.mem_cons.mp hv with rfl | h
    · simpa using le_trans (le_max_right a v) (foldl_max_init_le xs _)
    · simpa using ih (max a x) h

theorem foldl_max_mem {α : Type} [LinearOrder α] (l : List α) (a : α) :
    l.foldl max a = a ∨ l.foldl max a ∈ l := by
  induction l generalizing a with
  | nil => left; rfl
  | cons x xs ih =>
    rcases ih (max a x) with h | h
    · rcases max_choice a x with hm | hm
      · left; simpa [hm] using h
      · right; rw [List.foldl_cons, h, hm]; exact List.mem_cons_self x xs
    · right; simpa using Or.inr h

theorem foldl_max_take_le {α : Type} [LinearOrder α] (l : List α) (a : α) (m n : Nat)
    (h : m ≤ n) : (l.take m).foldl max a ≤ (l.take n).foldl max a := by
  have hsplit : l.take n = l.take m ++ ((l.drop m).take (n - m)) := by
    rw [← List.take_add]
    congr 1
    omega
  rw [hsplit, List.foldl_append]
  exact foldl_max_init_le _ _

/-! ## Claim theorems -/

/-- **C1** — the claim asserts venv-based project-root inference: for
`C:\proj\.venv\Scripts\python.exe main.py` the extractor should return
`C:\proj\main.py`.  The code has no such inference: none of the five regex
patterns consults the interpreter path, and on this exact command line the
bare-filename pattern returns `main.py`.  This theorem evaluates the embedded
code at the claim's own scenario, exhibiting the divergence (the repository
README documents the venv inference, so the code contradicts its own
documentation). -/
theorem claim_C1_no_venv_inference :
    extractScriptName (some "C:\\proj\\.venv\\Scripts\\python.exe main.py") = some "main.py" ∧
    extractScriptName (some "C:\\proj\\.venv\\Scripts\\python.exe main.py")
      ≠ some "C:\\proj\\main.py" := by
  refine ⟨by decide, by decide⟩

/-- **C3** — window invariant of the history store: after every record
operation the two windows have equal length at most 100, and once more than
100 samples have been submitted both windows hold exactly the last 100
submitted values in submission order (FIFO eviction). -/
theorem claim_C3_window_invariant (proc : ProcessInfo) (xs : List (Rat × Rat)) :
    (∀ n : Nat,
      ((runSamples (mkHistory proc) (xs.take n)).cpuHistory).length
          = ((runSamples (mkHistory proc) (xs.take n)).memoryHistory).length ∧
      ((runSamples (mkHistory proc) (xs.take n)).cpuHistory).length ≤ 100) ∧
    (xs.length > 100 →
      (runSamples (mkHistory proc) xs).cpuHistory
          = (xs.map Prod.fst).drop (xs.length - 100) ∧
      (runSamples (mkHistory proc) xs).memoryHistory
          = (xs.map Prod.snd).drop (xs.length - 100) ∧
      ((runSamples (mkHistory proc) xs).cpuHistory).length = 100 ∧
      ((runSamples (mkHistory proc) xs).memoryHistory).length = 100) := by
  constructor
  · intro n
    obtain ⟨h1, h2, _, _, _⟩ := runSamples_spec proc (xs.take n)
    rw [h1, h2]
    constructor
    · rw [lastN_length, lastN_length]
      simp
    · rw [lastN_length]
      omega
  · intro hlen
    obtain ⟨h1, h2, _, _, _⟩ := runSamples_spec proc xs
    have e1 : lastN 100 (xs.map Prod.fst) = (xs.map Prod.fst).drop (xs.length - 100) := by
      unfold lastN
      rw [List.length_map]
    have e2 : lastN 100 (xs.map Prod.snd) = (xs.map Prod.snd).drop (xs.length - 100) := by
      unfold lastN
      rw [List.length_map]
    refine ⟨by rw [h1, e1], by rw [h2, e2], ?_, ?_⟩
    · rw [h1, lastN_length]
      simp
      omega
    · rw [h2, lastN_length]
      simp
      omega

/-- The spec's 150-sample scenario, used as the concrete witness for C3:
sequential samples 1..150 leave `[51, …, 150]` in the windows. -/
def xs150 : List (Rat × Rat) :=
  (List.range 150).map (fun i => (((i : Rat) + 1), ((i : Rat) + 1)))

def procSample : ProcessInfo :=
  { pid := 1, name := "python", cmd := none, cpu := 0, memory := 0, memoryMB := 0 }

set_option maxRecDepth 4000 in
theorem claim_C3_witness :
    xs150.length > 100 ∧
    (runSamples (mkHistory procSample) xs150).memoryHistory
      = (xs150.map Prod.snd).drop 50 := by
  refine ⟨by decide, ?_⟩
  have h := (claim_C3_window_invariant procSample xs150).2 (by decide)
  exact h.2.1

/-- **C9** — an interval argument that does not parse to a number, or parses
below 100, makes `main` exit with status 1 before anything else: the result
of `mainDecision` is `exitError 1`, which carries no trace or monitor
configuration, for every other option combination and every interactive
selection. -/
theorem claim_C9_invalid_interval_exits (opts : CliOptions) (sel : Option Selection)
    (h : ∀ v : Int, parseIntJS opts.interval = some v → v < 100) :
    mainDecision opts sel = .exitError 1 := by
  rcases hp : parseIntJS opts.interval with _ | v
  · simp [mainDecision, hp]
  · have hv := h v hp
    simp [mainDecision, hp, hv]

theorem claim_C9_witness :
    mainDecision
      { processType := some "python", trace := none, filter := none, interval := "50",
        exportOnExit := false, web := none, tree := false, alertCpu := none,
        alertMemory := none, docker := false } none = .exitError 1 :=
  claim_C9_invalid_interval_exits _ _ (fun v hv => by
    rw [show parseIntJS "50" = some 50 from by decide] at hv
    cases hv
    decide)

/-- **C10** — lifetime totals of a HistoryRecord: `samples` counts every
sample ever recorded, `peakCPU`/`peakMemory` are the maxima over every sample
ever recorded (including ones already evicted from the 100-entry windows;
the record is created with peaks `0`, so with the spec's nonnegative readings
the peak is attained by some sample), and `samples` and both peaks are
monotonically non-decreasing along the tick sequence. -/
theorem claim_C10_lifetime_totals (proc : ProcessInfo) (xs : List (Rat × Rat))
    (hcpu : ∀ v ∈ xs.map Prod.fst, 0 ≤ v) (hmem : ∀ v ∈ xs.map Prod.snd, 0 ≤ v)
    (hne : xs ≠ []) :
    (runSamples (mkHistory proc) xs).samples = xs.length ∧
    ((runSamples (mkHistory proc) xs).peakCPU ∈ xs.map Prod.fst ∧
      ∀ v ∈ xs.map Prod.fst, v ≤ (runSamples (mkHistory proc) xs).peakCPU) ∧
    ((runSamples (mkHistory proc) xs).peakMemory ∈ xs.map Prod.snd ∧
      ∀ v ∈ xs.map Prod.snd, v ≤ (runSamples (mkHistory proc) xs).peakMemory) ∧
    (∀ m n : Nat, m ≤ n →
      (runSamples (mkHistory proc) (xs.take m)).samples
          ≤ (runSamples (mkHistory proc) (xs.take n)).samples ∧
      (runSamples (mkHistory proc) (xs.take m)).peakCPU
          ≤ (runSamples (mkHistory proc) (xs.take n)).peakCPU ∧
      (runSamples (mkHistory proc) (xs.take m)).peakMemory
          ≤ (runSamples (mkHistory proc) (xs.take n)).peakMemory) := by
  have peak_attained : ∀ (l : List Rat), l ≠ [] → (∀ v ∈ l, 0 ≤ v) →
      l.foldl max 0 ∈ l ∧ ∀ v ∈ l, v ≤ l.foldl max 0 := by
    intro l hl hpos
    have hub : ∀ v ∈ l, v ≤ l.foldl max 0 := fun v hv => mem_le_foldl_max l 0 v hv
    rcases foldl_max_mem l 0 with h0 | hmem2
    · rcases l with _ | ⟨x, rest⟩
      · exact absurd rfl hl
      · have hx1 : x ≤ 0 := h0 ▸ hub x (List.mem_cons_self x rest)
        have hx2 : (0 : Rat) ≤ x := hpos x (List.mem_cons_self x rest)
        have hx : x = 0 := le_antisymm hx1 hx2
        have hfx : (x :: rest).foldl max 0 = x := by rw [h0, hx]
        refine ⟨?_, hub⟩
        rw [hfx]
        exact List.mem_cons_self x rest
    · exact ⟨hmem2, hub⟩
  obtain ⟨_, _, h3, h4, h5⟩ := runSamples_spec proc xs
  refine ⟨h3, ?_, ?_, ?_⟩
  · rw [h4]
    exact peak_attained _ (by simpa using hne) hcpu
  · rw [h5]
    exact peak_attained _ (by simpa using hne) hmem
  · intro m n hmn
    obtain ⟨_, _, g3, g4, g5⟩ := runSamples_spec proc (xs.take m)
    obtain ⟨_, _, k3, k4, k5⟩ := runSamples_spec proc (xs.take n)
    refine ⟨?_, ?_, ?_⟩
    · rw [g3, k3]
      simp
      omega
    · rw [g4, k4, List.map_take, List.map_take]
      exact foldl_max_take_le _ 0 m n hmn
    · rw [g5, k5, List.map_take, List.map_take]
      exact foldl_max_take_le _ 0 m n hmn

theorem claim_C10_witness :
    (runSamples (mkHistory procSample) [(5, 10), (3, 20)]).samples = 2 ∧
    ∀ v ∈ ([(5, 10), (3, 20)] : List (Rat × Rat)).map Prod.fst,
      v ≤ (runSamples (mkHistory procSample) [(5, 10), (3, 20)]).peakCPU := by
  have h := claim_C10_lifetime_totals procSample [(5, 10), (3, 20)]
    (by decide) (by decide) (by decide)
  exact ⟨h.1, h.2.1.2⟩

/-- One tick of the data pipeline relevant to the history store: the mapping
step of `getProcesses` over the name-filtered list followed by the history
update loop of `startMonitor`. -/
def monitorTick (history : Nat → Option ProcessHistory) (filtered : List ProcDesc)
    (stats : Nat → Option ProcessStats) (pat : Option String) :
    Nat → Option ProcessHistory :=
  tickUpdate history (getProcessesPure filtered stats pat)

theorem tickUpdate_cons (h : Nat → Option ProcessHistory) (q : ProcessInfo)
    (rest : List ProcessInfo) :
    tickUpdate h (q :: rest)
      = tickUpdate
          (fun pid => if pid = q.pid then
             some (recordSample ((h q.pid).getD (mkHistory q)) q.cpu q.memoryMB)
           else h pid)
          rest := rfl

theorem tickUpdate_not_mem (procs : List ProcessInfo) (h : Nat → Option ProcessHistory)
    (pid : Nat) (hp : pid ∉ procs.map ProcessInfo.pid) :
    tickUpdate h procs pid = h pid := by
  induction procs generalizing h with
  | nil => rfl
  | cons q rest ih =>
    rw [tickUpdate_cons]
    have h1 : ¬ (pid = q.pid ∨ pid ∈ rest.map ProcessInfo.pid) := by simpa using hp
    rw [ih _ (fun hm => h1 (Or.inr hm))]
    have hne : ¬ pid = q.pid := fun he => h1 (Or.inl he)
    simp [hne]

theorem tickUpdate_mem (procs : List ProcessInfo) (h : Nat → Option ProcessHistory)
    (p : ProcessInfo) (hnd : (procs.map ProcessInfo.pid).Nodup) (hp : p ∈ procs) :
    tickUpdate h procs p.pid
      = some (recordSample ((h p.pid).getD (mkHistory p)) p.cpu p.memoryMB) := by
  induction procs generalizing h with
  | nil => cases hp
  | cons q rest ih =>
    rw [tickUpdate_cons]
    rcases List.mem_cons.mp hp with rfl | hmem
    · have hnotin : p.pid ∉ rest.map ProcessInfo.pid := by
        rw [List.map_cons] at hnd
        exact (List.nodup_cons.mp hnd).1
      rw [tickUpdate_not_mem rest _ _ hnotin]
      simp
    · have hnd2 : (rest.map ProcessInfo.pid).Nodup := by
        rw [List.map_cons] at hnd
        exact (List.nodup_cons.mp hnd).2
      have hqp : p.pid ≠ q.pid := by
        rw [List.map_cons] at hnd
        intro he
        exact (List.nodup_cons.mp hnd).1 (he ▸ List.mem_map_of_mem ProcessInfo.pid hmem)
      rw [ih _ hnd2 hmem]
      simp [hqp]

theorem getProcessesPure_pid_sublist (filtered : List ProcDesc)
    (stats : Nat → Option ProcessStats) (pat : Option String) :
    ((getProcessesPure filtered stats pat).map ProcessInfo.pid).Sublist
      (filtered.map ProcDesc.pid) := by
  induction filtered with
  | nil => simp [getProcessesPure]
  | cons q rest ih =>
    simp only [getProcessesPure, List.filterMap_cons] at ih ⊢
    by_cases hq : passesCmdFilter pat q.cmd
    · simp only [hq, if_pos, List.map_cons]
      exact ih.cons₂ q.pid
    · simp only [hq, if_neg, Bool.false_eq_true, List.map_cons]
      exact ih.cons q.pid

theorem getProcessesPure_missing_stats (filtered : List ProcDesc)
    (stats : Nat → Option ProcessStats) (pat : Option String) (p : ProcDesc)
    (hp : p ∈ filtered) (hs : stats p.pid = none)
    (hf : passesCmdFilter pat p.cmd = true) :
    ({ pid := p.pid, name := p.name, cmd := p.cmd,
       cpu := 0, memory := 0, memoryMB := 0 } : ProcessInfo)
      ∈ getProcessesPure filtered stats pat := by
  refine List.mem_filterMap.mpr ⟨p, hp, ?_⟩
  simp [hf, hs]

/-- **C2 counterexample** — concrete tick on which the claim fails: one known
filtered process (pid 1, already holding one history entry) and a sample
provider returning no entry at all.  The claim says the record is left
unchanged; the code instead appends a zero sample to both windows and bumps
`samples`. -/
def procDesc1 : ProcDesc := { pid := 1, ppid := 0, name := "python", cmd := none }

def histBefore : ProcessHistory :=
  { pid := 1, name := "python", cmd := none, samples := 1,
    cpuHistory := [5], memoryHistory := [12], peakMemory := 12, peakCPU := 5 }

def history0 : Nat → Option ProcessHistory :=
  fun pid => if pid = 1 then some histBefore else none

theorem claim_C2_counterexample :
    monitorTick history0 [procDesc1] (fun _ => none) none 1 ≠ some histBefore ∧
    (monitorTick history0 [procDesc1] (fun _ => none) none 1).map ProcessHistory.cpuHistory
      = some [5, 0] ∧
    (monitorTick history0 [procDesc1] (fun _ => none) none 1).map
        (fun h => h.memoryHistory.length) = some 2 ∧
    (monitorTick history0 [procDesc1] (fun _ => none) none 1).map ProcessHistory.samples
      = some 2 := by
  refine ⟨by decide, by decide, by decide, by decide⟩

/-- **C2 amended** — when the sample provider returns no entry for a known
filtered processId (including when the whole provider call fails, which
yields the empty stats record), that process is *not* skipped: it is mapped
to a `ProcessInfo` with cpu 0 and memory 0, and the tick appends a `0` entry
to both of its windows (`recordSample … 0 0`), creating the record first if
absent.  No error is raised anywhere on this path (all functions are total). -/
theorem claim_C2_zero_substitution (filtered : List ProcDesc)
    (stats : Nat → Option ProcessStats) (pat : Option String)
    (history : Nat → Option ProcessHistory) (p : ProcDesc)
    (hnd : (filtered.map ProcDesc.pid).Nodup) (hp : p ∈ filtered)
    (hs : stats p.pid = none) (hf : passesCmdFilter pat p.cmd = true) :
    ({ pid := p.pid, name := p.name, cmd := p.cmd,
       cpu := 0, memory := 0, memoryMB := 0 } : ProcessInfo)
        ∈ getProcessesPure filtered stats pat ∧
    monitorTick history filtered stats pat p.pid
      = some (recordSample
          ((history p.pid).getD
            (mkHistory { pid := p.pid, name := p.name, cmd := p.cmd,
                         cpu := 0, memory := 0, memoryMB := 0 }))
          0 0) := by
  have hmem := getProcessesPure_missing_stats filtered stats pat p hp hs hf
  refine ⟨hmem, ?_⟩
  have hnd2 : ((getProcessesPure filtered stats pat).map ProcessInfo.pid).Nodup :=
    hnd.sublist (getProcessesPure_pid_sublist filtered stats pat)
  exact tickUpdate_mem (getProcessesPure filtered stats pat) history _ hnd2 hmem

theorem claim_C2_witness :
    monitorTick history0 [procDesc1] (fun _ => none) none 1
      = some (recordSample histBefore 0 0) := by
  have h := claim_C2_zero_substitution [procDesc1] (fun _ => none) none history0 procDesc1
    (by decide) (by decide) rfl (by decide)
  exact h.2

/-- Soundness of one threshold branch: every alert in the output list is
either carried over or was just built with the branch's own threshold and a
strictly exceeding value. -/
theorem checkBranch_sound (kind : AlertKind) (thrOpt : Option Rat) (value : Rat)
    (names : Nat → Option String) (now : Int) (proc : ProcessInfo) (st : AlertState)
    (P : Alert → Prop)
    (hP : ∀ thr, thrOpt = some thr → value > thr →
      P { timestamp := now, pid := proc.pid, name := displayNameOf names proc,
          type := kind, value := value, threshold := thr })
    (hst : ∀ a ∈ st.newAlerts, P a) :
    ∀ a ∈ (checkBranch kind thrOpt value names now proc st).newAlerts, P a := by
  cases thrOpt with
  | none => exact hst
  | some thr =>
    by_cases hc : value > thr ∧ shouldFire (st.supp (kind, proc.pid)) now
    · intro a ha
      rw [checkBranch, if_pos hc] at ha
      rcases List.mem_append.mp ha with h | h
      · exact hst a h
      · rw [List.mem_singleton.mp h]
        exact hP thr rfl hc.1
    · intro a ha
      rw [checkBranch, if_neg hc] at ha
      exact hst a ha

/-- The property C6 asserts of every emitted alert. -/
def alertSound (config : AlertConfig) (a : Alert) : Prop :=
  (a.type = AlertKind.cpu → config.cpuThreshold = some a.threshold ∧ a.value > a.threshold) ∧
  (a.type = AlertKind.memory → config.memoryThreshold = some a.threshold ∧ a.value > a.threshold)

theorem checkOne_sound (config : AlertConfig) (names : Nat → Option String) (now : Int)
    (st : AlertState) (proc : ProcessInfo)
    (hst : ∀ a ∈ st.newAlerts, alertSound config a) :
    ∀ a ∈ (checkOne config names now st proc).newAlerts, alertSound config a := by
  refine checkBranch_sound _ _ _ _ _ _ _ _ ?_ (checkBranch_sound _ _ _ _ _ _ _ _ ?_ hst)
  · intro thr hthr hv
    exact ⟨fun h => absurd h (by simp), fun _ => ⟨hthr, hv⟩⟩
  · intro thr hthr hv
    exact ⟨fun _ => ⟨hthr, hv⟩, fun h => absurd h (by simp)⟩

theorem checkAlerts_fold_sound (config : AlertConfig) (names : Nat → Option String)
    (now : Int) (procs : List ProcessInfo) (st : AlertState)
    (hst : ∀ a ∈ st.newAlerts, alertSound config a) :
    ∀ a ∈ (procs.foldl (checkOne config names now) st).newAlerts, alertSound config a := by
  induction procs generalizing st with
  | nil => exact hst
  | cons p rest ih => exact ih _ (checkOne_sound config names now st p hst)

/-- **C6** — an alert of a given kind is emitted only when the configuration
holds a threshold for that kind and the observed value strictly exceeds it;
equality never alerts, and an omitted kind never alerts. -/
theorem claim_C6_strict_thresholds (processes : List ProcessInfo) (config : AlertConfig)
    (names : Nat → Option String) (now : Int) (supp : SuppMap) (histLog : List Alert) :
    ∀ a ∈ (checkAlerts processes config names now supp histLog).newAlerts,
      (a.type = AlertKind.cpu →
        config.cpuThreshold = some a.threshold ∧ a.value > a.threshold) ∧
      (a.type = AlertKind.memory →
        config.memoryThreshold = some a.threshold ∧ a.value > a.threshold) ∧
      (config.cpuThreshold = none → a.type ≠ AlertKind.cpu) ∧
      (config.memoryThreshold = none → a.type ≠ AlertKind.memory) := by
  intro a ha
  have hs := checkAlerts_fold_sound config names now processes
    { newAlerts := [], supp := supp, histLog := histLog } (by simp) a ha
  refine ⟨hs.1, hs.2, ?_, ?_⟩
  · intro hn ht
    rw [(hs.1 ht).1] at hn
    cases hn
  · intro hn ht
    rw [(hs.2 ht).1] at hn
    cases hn

def alertDemo : Alert :=
  { timestamp := 5, pid := 7, name := "python", type := AlertKind.cpu,
    value := 85, threshold := 80 }

theorem claim_C6_witness :
    cfgCpu80.cpuThreshold = some alertDemo.threshold
      ∧ alertDemo.value > alertDemo.threshold :=
  ((claim_C6_strict_thresholds [procA] cfgCpu80 (fun _ => none) 5 (fun _ => none) [])
    alertDemo (by decide)).1 rfl

/-- Predicate picking out alerts for one `(processId, kind)` pair. -/
def keyPred (kind : AlertKind) (pid : Nat) (a : Alert) : Bool :=
  decide (a.pid = pid ∧ a.type = kind)

/-- The fired branch written out. -/
theorem checkBranch_fire_eq (kind2 : AlertKind) (thr value : Rat)
    (names : Nat → Option String) (now : Int) (proc : ProcessInfo) (st : AlertState)
    (hc : value > thr ∧ shouldFire (st.supp (kind2, proc.pid)) now) :
    checkBranch kind2 (some thr) value names now proc st =
      { newAlerts := st.newAlerts
          ++ [⟨now, proc.pid, displayNameOf names proc, kind2, value, thr⟩],
        supp := fun k => if k = (kind2, proc.pid) then some now else st.supp k,
        histLog := st.histLog
          ++ [⟨now, proc.pid, displayNameOf names proc, kind2, value, thr⟩] } := by
  rw [checkBranch, if_pos hc]

/-- While the suppression map holds a nonzero stamp within the cooldown of
`now`, one branch step neither emits an alert for that key nor disturbs the
stamp. -/
theorem checkBranch_blocked (kind2 : AlertKind) (thrOpt : Option Rat) (value : Rat)
    (names : Nat → Option String) (now : Int) (proc : ProcessInfo) (st : AlertState)
    (kind : AlertKind) (pid : Nat) (t : Int)
    (hsupp : st.supp (kind, pid) = some t) (ht : t ≠ 0)
    (hcool : now - t ≤ ALERT_COOLDOWN) :
    ((checkBranch kind2 thrOpt value names now proc st).newAlerts.countP (keyPred kind pid)
        = st.newAlerts.countP (keyPred kind pid)) ∧
    (checkBranch kind2 thrOpt value names now proc st).supp (kind, pid) = some t := by
  have hcool30 : now - t ≤ 30000 := hcool
  cases thrOpt with
  | none => exact ⟨rfl, hsupp⟩
  | some thr =>
    by_cases hk : (kind2, proc.pid) = (kind, pid)
    · have hsf : shouldFire (st.supp (kind2, proc.pid)) now = false := by
        rw [hk, hsupp]
        simp [shouldFire, ht]
        omega
      have hc : ¬ (value > thr ∧ shouldFire (st.supp (kind2, proc.pid)) now) := by
        rw [hsf]
        simp
      rw [checkBranch, if_neg hc]
      exact ⟨rfl, hsupp⟩
    · by_cases hc : value > thr ∧ shouldFire (st.supp (kind2, proc.pid)) now
      · rw [checkBranch_fire_eq kind2 thr value names now proc st hc]
        constructor
        · rw [List.countP_append]
          have hkey : keyPred kind pid
              ⟨now, proc.pid, displayNameOf names proc, kind2, value, thr⟩ = false := by
            simp only [keyPred, decide_eq_false_iff_not]
            exact fun hand => hk (by rw [hand.2, hand.1])
          simp [List.countP_cons, hkey]
        · have hne : ((kind, pid) : AlertKind × Nat) ≠ (kind2, proc.pid) :=
            fun he => hk he.symm
          simp only []
          rw [if_neg hne]
          exact hsupp
      · rw [checkBranch, if_neg hc]
        exact ⟨rfl, hsupp⟩

theorem checkOne_blocked (config : AlertConfig) (names : Nat → Option String) (now : Int)
    (st : AlertState) (proc : ProcessInfo) (kind : AlertKind) (pid : Nat) (t : Int)
    (hsupp : st.supp (kind, pid) = some t) (ht : t ≠ 0)
    (hcool : now - t ≤ ALERT_COOLDOWN) :
    ((checkOne config names now st proc).newAlerts.countP (keyPred kind pid)
        = st.newAlerts.countP (keyPred kind pid)) ∧
    (checkOne config names now st proc).supp (kind, pid) = some t := by
  have h1 := checkBranch_blocked AlertKind.cpu config.cpuThreshold proc.cpu names now proc st
    kind pid t hsupp ht hcool
  have h2 := checkBranch_blocked AlertKind.memory config.memoryThreshold proc.memoryMB names
    now proc _ kind pid t h1.2 ht hcool
  exact ⟨h2.1.trans h1.1, h2.2⟩

theorem checkAlerts_fold_blocked (config : AlertConfig) (names : Nat → Option String)
    (now : Int) (procs : List ProcessInfo) (st : AlertState) (kind : AlertKind) (pid : Nat)
    (t : Int) (hsupp : st.supp (kind, pid) = some t) (ht : t ≠ 0)
    (hcool : now - t ≤ ALERT_COOLDOWN) :
    ((procs.foldl (checkOne config names now) st).newAlerts.countP (keyPred kind pid)
        = st.newAlerts.countP (keyPred kind pid)) ∧
    (procs.foldl (checkOne config names now) st).supp (kind, pid) = some t := by
  induction procs generalizing st with
  | nil => exact ⟨rfl, hsupp⟩
  | cons p rest ih =>
    have h1 := checkOne_blocked config names now st p kind pid t hsupp ht hcool
    have h2 := ih _ h1.2
    exact ⟨h2.1.trans h1.1, h2.2⟩

/-- State invariant for a single `checkAlerts` call at time `now ≠ 0`: for a
fixed key, either no alert for the key has been emitted yet and its
suppression stamp is untouched, or exactly one more than the base count has
been emitted and the stamp is `now` — so one call emits at most one alert per
key. -/
theorem checkBranch_fire_invariant (kind2 : AlertKind) (thrOpt : Option Rat) (value : Rat)
    (names : Nat → Option String) (now : Int) (proc : ProcessInfo) (st : AlertState)
    (kind : AlertKind) (pid : Nat) (c0 : Nat) (s0 : Option Int) (hnow : now ≠ 0)
    (hJ : (st.newAlerts.countP (keyPred kind pid) = c0 ∧ st.supp (kind, pid) = s0)
        ∨ (st.newAlerts.countP (keyPred kind pid) = c0 + 1
            ∧ st.supp (kind, pid) = some now)) :
    ((checkBranch kind2 thrOpt value names now proc st).newAlerts.countP (keyPred kind pid)
          = c0
        ∧ (checkBranch kind2 thrOpt value names now proc st).supp (kind, pid) = s0)
      ∨ ((checkBranch kind2 thrOpt value names now proc st).newAlerts.countP
            (keyPred kind pid) = c0 + 1
        ∧ (checkBranch kind2 thrOpt value names now proc st).supp (kind, pid)
            = some now) := by
  cases thrOpt with
  | none => exact hJ
  | some thr =>
    by_cases hc : value > thr ∧ shouldFire (st.supp (kind2, proc.pid)) now
    · by_cases hk : (kind2, proc.pid) = (kind, pid)
      · rcases hJ with ⟨hcnt, hsup⟩ | ⟨hcnt, hsup⟩
        · rw [checkBranch_fire_eq kind2 thr value names now proc st hc]
          right
          constructor
          · rw [List.countP_append]
            have hkey : keyPred kind pid
                ⟨now, proc.pid, displayNameOf names proc, kind2, value, thr⟩ = true := by
              have hp : proc.pid = pid := congrArg Prod.snd hk
              have hkd : kind2 = kind := congrArg Prod.fst hk
              simp [keyPred, hp, hkd]
            simp [List.countP_cons, hkey, hcnt]
          · simp only []
            rw [if_pos hk.symm]
        · exfalso
          have : shouldFire (st.supp (kind2, proc.pid)) now = false := by
            rw [hk, hsup]
            simp [shouldFire, hnow, ALERT_COOLDOWN]
          rw [this] at hc
          exact Bool.false_ne_true hc.2
      · rw [checkBranch_fire_eq kind2 thr value names now proc st hc]
        have hkey : keyPred kind pid
            ⟨now, proc.pid, displayNameOf names proc, kind2, value, thr⟩ = false := by
          simp only [keyPred, decide_eq_false_iff_not]
          exact fun hand => hk (by rw [hand.2, hand.1])
        have hne : ((kind, pid) : AlertKind × Nat) ≠ (kind2, proc.pid) :=
          fun he => hk he.symm
        rcases hJ with ⟨hcnt, hsup⟩ | ⟨hcnt, hsup⟩
        · left
          refine ⟨?_, ?_⟩
          · rw [List.countP_append]
            simp [List.countP_cons, hkey, hcnt]
          · simp only []
            rw [if_neg hne]
            exact hsup
        · right
          refine ⟨?_, ?_⟩
          · rw [List.countP_append]
            simp [List.countP_cons, hkey, hcnt]
          · simp only []
            rw [if_neg hne]
            exact hsup
    · rw [checkBranch, if_neg hc]
      exact hJ

theorem checkOne_fire_invariant (config : AlertConfig) (names : Nat → Option String)
    (now : Int) (st : AlertState) (proc : ProcessInfo) (kind : AlertKind) (pid : Nat)
    (c0 : Nat) (s0 : Option Int) (hnow : now ≠ 0)
    (hJ : (st.newAlerts.countP (keyPred kind pid) = c0 ∧ st.supp (kind, pid) = s0)
        ∨ (st.newAlerts.countP (keyPred kind pid) = c0 + 1
            ∧ st.supp (kind, pid) = some now)) :
    ((checkOne config names now st proc).newAlerts.countP (keyPred kind pid) = c0
        ∧ (checkOne config names now st proc).supp (kind, pid) = s0)
      ∨ ((checkOne config names now st proc).newAlerts.countP (keyPred kind pid) = c0 + 1
        ∧ (checkOne config names now st proc).supp (kind, pid) = some now) :=
  checkBranch_fire_invariant AlertKind.memory config.memoryThreshold proc.memoryMB names now
    proc _ kind pid c0 s0 hnow
    (checkBranch_fire_invariant AlertKind.cpu config.cpuThreshold proc.cpu names now proc st
      kind pid c0 s0 hnow hJ)

theorem checkAlerts_fold_fire_invariant (config : AlertConfig)
    (names : Nat → Option String) (now : Int) (procs : List ProcessInfo) (st : AlertState)
    (kind : AlertKind) (pid : Nat) (c0 : Nat) (s0 : Option Int) (hnow : now ≠ 0)
    (hJ : (st.newAlerts.countP (keyPred kind pid) = c0 ∧ st.supp (kind, pid) = s0)
        ∨ (st.newAlerts.countP (keyPred kind pid) = c0 + 1
            ∧ st.supp (kind, pid) = some now)) :
    ((procs.foldl (checkOne config names now) st).newAlerts.countP (keyPred kind pid) = c0
        ∧ (procs.foldl (checkOne config names now) st).supp (kind, pid) = s0)
      ∨ ((procs.foldl (checkOne config names now) st).newAlerts.countP (keyPred kind pid)
            = c0 + 1
        ∧ (procs.foldl (checkOne config names now) st).supp (kind, pid) = some now) := by
  induction procs generalizing st with
  | nil => exact hJ
  | cons p rest ih =>
    exact ih _ (checkOne_fire_invariant config names now st p kind pid c0 s0 hnow hJ)

/-- **C5 counterexample** — the claim fails when the first alert's timestamp
is `0` (the value the spec's own scenario uses for the first sample): the JS
guard `!lastAlert` treats a recorded stamp of `0` as absent, so a second
breach 10000 ms later fires again: two alerts with the same processId and
kind whose timestamps differ by 10000 ms ≤ 30000 ms. -/
theorem claim_C5_counterexample :
    (checkAlerts [procA] cfgCpu80 (fun _ => none) 0 (fun _ => none) []).newAlerts.countP
        (keyPred AlertKind.cpu 7) = 1 ∧
    (checkAlerts [procA] cfgCpu80 (fun _ => none) 10000
        (checkAlerts [procA] cfgCpu80 (fun _ => none) 0 (fun _ => none) []).supp
        (checkAlerts [procA] cfgCpu80 (fun _ => none) 0 (fun _ => none) []).histLog
      ).newAlerts.countP (keyPred AlertKind.cpu 7) = 1 ∧
    (checkAlerts [procA] cfgCpu80 (fun _ => none) 10000
        (checkAlerts [procA] cfgCpu80 (fun _ => none) 0 (fun _ => none) []).supp
        (checkAlerts [procA] cfgCpu80 (fun _ => none) 0 (fun _ => none) []).histLog
      ).histLog.map (fun a => (a.pid, a.type, a.timestamp))
      = [(7, AlertKind.cpu, 0), (7, AlertKind.cpu, 10000)] ∧
    (10000 : Int) - 0 ≤ ALERT_COOLDOWN := by
  refine ⟨by decide, by decide, by decide, by decide⟩

/-- **C5 amended** — provided the first emitted alert's timestamp is nonzero
(JS falsiness makes a `0` stamp indistinguishable from no stamp), a second
`check` call within the 30000 ms cooldown emits no further alert for the same
(processId, kind): across the two calls exactly one alert for that key is
emitted. -/
theorem claim_C5_cooldown_once (procs1 procs2 : List ProcessInfo) (config : AlertConfig)
    (names : Nat → Option String) (t1 t2 : Int) (supp : SuppMap) (log log2 : List Alert)
    (kind : AlertKind) (pid : Nat) (h1 : t1 ≠ 0) (hcool : t2 - t1 ≤ ALERT_COOLDOWN)
    (hfired : 1 ≤ (checkAlerts procs1 config names t1 supp log).newAlerts.countP
        (keyPred kind pid)) :
    ((checkAlerts procs1 config names t1 supp log).newAlerts
        ++ (checkAlerts procs2 config names t2
              (checkAlerts procs1 config names t1 supp log).supp log2).newAlerts).countP
      (keyPred kind pid) = 1 := by
  have hJ := checkAlerts_fold_fire_invariant config names t1 procs1
    { newAlerts := [], supp := supp, histLog := log } kind pid 0 (supp (kind, pid)) h1
    (Or.inl ⟨rfl, rfl⟩)
  rcases hJ with ⟨hc0, _⟩ | ⟨hc1, hs1⟩
  · exact absurd hfired (by rw [show (checkAlerts procs1 config names t1 supp log).newAlerts.countP (keyPred kind pid) = 0 from hc0]; omega)
  · have hblocked := checkAlerts_fold_blocked config names t2 procs2
      { newAlerts := [], supp := (checkAlerts procs1 config names t1 supp log).supp,
        histLog := log2 } kind pid t1 hs1 h1 hcool
    rw [List.countP_append]
    have h2 : (checkAlerts procs2 config names t2
        (checkAlerts procs1 config names t1 supp log).supp log2).newAlerts.countP
          (keyPred kind pid) = 0 := hblocked.1
    have hc1a : (checkAlerts procs1 config names t1 supp log).newAlerts.countP
        (keyPred kind pid) = 1 := hc1
    rw [hc1a, h2]

theorem claim_C5_witness :
    ((checkAlerts [procA] cfgCpu80 (fun _ => none) 1000 (fun _ => none) []).newAlerts
        ++ (checkAlerts [procA] cfgCpu80 (fun _ => none) 11000
              (checkAlerts [procA] cfgCpu80 (fun _ => none) 1000
                (fun _ => none) []).supp []).newAlerts).countP
      (keyPred AlertKind.cpu 7) = 1 :=
  claim_C5_cooldown_once [procA] [procA] cfgCpu80 (fun _ => none) 1000 11000
    (fun _ => none) [] [] AlertKind.cpu 7 (by decide) (by decide) (by decide)

/-! ## Tree lemmas -/

theorem setDepths_mk (pid ppid : Nat) (nm : String) (cpu mem : Rat)
    (cs : List TreeNode) (d0 d : Nat) :
    setDepths (.mk pid ppid nm cpu mem cs d0) d
      = .mk pid ppid nm cpu mem (cs.map (fun ch => setDepths ch (d + 1))) d := by
  rw [setDepths]
  simp

theorem preorder_mk (pid ppid : Nat) (nm : String) (cpu mem : Rat)
    (cs : List TreeNode) (d : Nat) :
    preorder (.mk pid ppid nm cpu mem cs d)
      = .mk pid ppid nm cpu mem cs d :: cs.flatMap preorder := by
  rw [preorder]
  simp

theorem self_mem_preorder (t : TreeNode) : t ∈ preorder t := by
  cases t
  rw [preorder_mk]
  exact List.mem_cons_self _ _

theorem setDepths_pid (t : TreeNode) (d : Nat) : (setDepths t d).pid = t.pid := by
  cases t
  rw [setDepths_mk]
  rfl

theorem setDepths_depth (t : TreeNode) (d : Nat) : (setDepths t d).depth = d := by
  cases t
  rw [setDepths_mk]
  rfl

/-- Custom structural induction for the nested inductive `TreeNode`. -/
def TreeNode.strongInd {motive : TreeNode → Prop}
    (h : ∀ pid ppid nm cpu mem children depth,
        (∀ c ∈ children, motive c) → motive (.mk pid ppid nm cpu mem children depth)) :
    ∀ t, motive t
  | .mk pid ppid nm cpu mem children depth =>
    h pid ppid nm cpu mem children depth
      (fun c hc => TreeNode.strongInd h c)
termination_by t => sizeOf t
decreasing_by
  have := List.sizeOf_lt_of_mem hc
  simp only [TreeNode.mk.sizeOf_spec]
  omega

theorem buildNode_pid (procs : List ProcessInfo) (allProcesses : List PsDesc)
    (fuel : Nat) (p : ProcessInfo) :
    (buildNode procs allProcesses fuel p).pid = p.pid := by
  cases fuel <;> rfl

theorem buildNode_cpu (procs : List ProcessInfo) (allProcesses : List PsDesc)
    (fuel : Nat) (p : ProcessInfo) :
    (buildNode procs allProcesses fuel p).cpu = p.cpu := by
  cases fuel <;> rfl

theorem mem_insertDesc (x y : TreeNode) (l : List TreeNode) :
    y ∈ insertDesc x l ↔ y = x ∨ y ∈ l := by
  induction l with
  | nil => simp [insertDesc]
  | cons z zs ih =>
    rw [insertDesc]
    by_cases h : x.cpu < z.cpu
    · rw [if_pos h]
      simp [ih]
      tauto
    · rw [if_neg h]
      simp

theorem mem_sortDesc (y : TreeNode) (l : List TreeNode) :
    y ∈ sortDesc l ↔ y ∈ l := by
  induction l with
  | nil => simp [sortDesc]
  | cons z zs ih =>
    rw [sortDesc, mem_insertDesc]
    simp [ih]

/-- Every node of every re-deptherized tree gives each of its children depth
exactly one more than its own, and its children stay inside the same
traversal. -/
theorem preorder_setDepths_children (t : TreeNode) :
    ∀ d, ∀ n ∈ preorder (setDepths t d), ∀ c ∈ n.children,
      c.depth = n.depth + 1 ∧ c ∈ preorder (setDepths t d) := by
  refine TreeNode.strongInd
    (motive := fun t => ∀ d, ∀ n ∈ preorder (setDepths t d), ∀ c ∈ n.children,
      c.depth = n.depth + 1 ∧ c ∈ preorder (setDepths t d)) ?_ t
  intro pid ppid nm cpu mem children depth ih d n hn c hc
  rw [setDepths_mk, preorder_mk] at hn
  rcases List.mem_cons.mp hn with rfl | hn2
  · have hc2 : c ∈ children.map (fun ch => setDepths ch (d + 1)) := hc
    obtain ⟨ch, hchmem, rfl⟩ := List.mem_map.mp hc2
    refine ⟨by rw [setDepths_depth]; rfl, ?_⟩
    rw [setDepths_mk, preorder_mk]
    exact List.mem_cons_of_mem _
      (List.mem_flatMap.mpr ⟨setDepths ch (d + 1),
        List.mem_map_of_mem _ hchmem, self_mem_preorder _⟩)
  · obtain ⟨c2, hc2mem, hn3⟩ := List.mem_flatMap.mp hn2
    obtain ⟨ch, hchmem, rfl⟩ := List.mem_map.mp hc2mem
    have hrec := ih ch hchmem (d + 1) n hn3 c hc
    refine ⟨hrec.1, ?_⟩
    rw [setDepths_mk, preorder_mk]
    exact List.mem_cons_of_mem _
      (List.mem_flatMap.mpr ⟨setDepths ch (d + 1),
        List.mem_map_of_mem _ hchmem, hrec.2⟩)

/-- **C7** — forest roots and depths: every filtered process whose parent id
is not the pid of any filtered process becomes a forest root; in the
flattened output every root appears with depth 0, and every listed node's
children appear in the output with depth exactly one more than their
parent's.  The pid-distinctness hypothesis matches `buildProcessTree`'s use
of a `Map` keyed by pid. -/
theorem claim_C7_roots_and_depths (procs : List ProcessInfo) (allProcesses : List PsDesc)
    (hnd : (procs.map ProcessInfo.pid).Nodup) :
    (∀ p ∈ procs, ppidOf allProcesses p.pid ∉ procs.map ProcessInfo.pid →
      ∃ r ∈ buildProcessTree procs allProcesses, r.pid = p.pid) ∧
    (∀ r ∈ buildProcessTree procs allProcesses,
      ∃ n ∈ flattenTree (buildProcessTree procs allProcesses),
        n.pid = r.pid ∧ n.depth = 0) ∧
    (∀ n ∈ flattenTree (buildProcessTree procs allProcesses), ∀ c ∈ n.children,
      c ∈ flattenTree (buildProcessTree procs allProcesses)
        ∧ c.depth = n.depth + 1) := by
  refine ⟨?_, ?_, ?_⟩
  · intro p hp hroot
    refine ⟨buildNode procs allProcesses procs.length p, ?_, buildNode_pid _ _ _ _⟩
    rw [buildProcessTree, mem_sortDesc]
    refine List.mem_map_of_mem _ ?_
    rw [rootProcs, List.mem_filter]
    refine ⟨hp, ?_⟩
    simpa using hroot
  · intro r hr
    refine ⟨setDepths r 0, ?_, setDepths_pid r 0, setDepths_depth r 0⟩
    rw [flattenTree]
    exact List.mem_flatMap.mpr ⟨setDepths r 0,
      List.mem_map_of_mem _ hr, self_mem_preorder _⟩
  · intro n hn c hc
    rw [flattenTree] at hn
    obtain ⟨rd, hrdmem, hn2⟩ := List.mem_flatMap.mp hn
    obtain ⟨r, hrmem, rfl⟩ := List.mem_map.mp hrdmem
    have h := preorder_setDepths_children r 0 n hn2 c hc
    refine ⟨?_, h.1⟩
    rw [flattenTree]
    exact List.mem_flatMap.mpr ⟨setDepths r 0, List.mem_map_of_mem _ hrmem, h.2⟩

/-- The spec's tree scenario, used as C7's witness: A (pid 1, no parent in
set), B (pid 2, child of A), C (pid 3, parent 9 filtered out). -/
def procsDemo : List ProcessInfo :=
  [{ pid := 1, name := "a.py", cmd := none, cpu := 5, memory := 0, memoryMB := 0 },
   { pid := 2, name := "b.py", cmd := none, cpu := 2, memory := 0, memoryMB := 0 },
   { pid := 3, name := "c.py", cmd := none, cpu := 3, memory := 0, memoryMB := 0 }]

def allDemo : List PsDesc :=
  [{ pid := 1, ppid := 0, name := "a.py" }, { pid := 2, ppid := 1, name := "b.py" },
   { pid := 3, ppid := 9, name := "c.py" }]

theorem claim_C7_witness :
    (∀ p ∈ procsDemo, ppidOf allDemo p.pid ∉ procsDemo.map ProcessInfo.pid →
      ∃ r ∈ buildProcessTree procsDemo allDemo, r.pid = p.pid) ∧
    (∀ r ∈ buildProcessTree procsDemo allDemo,
      ∃ n ∈ flattenTree (buildProcessTree procsDemo allDemo),
        n.pid = r.pid ∧ n.depth = 0) ∧
    (∀ n ∈ flattenTree (buildProcessTree procsDemo allDemo), ∀ c ∈ n.children,
      c ∈ flattenTree (buildProcessTree procsDemo allDemo)
        ∧ c.depth = n.depth + 1) :=
  claim_C7_roots_and_depths procsDemo allDemo (by decide)

/-! ## Sorting lemmas for C8 -/

theorem insertDesc_pairwise (x : TreeNode) (l : List TreeNode)
    (hl : l.Pairwise (fun a b => b.cpu ≤ a.cpu)) :
    (insertDesc x l).Pairwise (fun a b => b.cpu ≤ a.cpu) := by
  induction l with
  | nil => simp [insertDesc]
  | cons z zs ih =>
    rw [insertDesc]
    rcases List.pairwise_cons.mp hl with ⟨hz, hzs⟩
    by_cases h : x.cpu < z.cpu
    · rw [if_pos h]
      refine List.pairwise_cons.mpr ⟨?_, ih hzs⟩
      intro y hy
      rcases (mem_insertDesc x y zs).mp hy with rfl | hmem
      · exact le_of_lt h
      · exact hz y hmem
    · rw [if_neg h]
      refine List.pairwise_cons.mpr ⟨?_, hl⟩
      intro y hy
      rcases List.mem_cons.mp hy with rfl | hmem
      · exact le_of_not_lt h
      · exact le_trans (hz y hmem) (le_of_not_lt h)

theorem sortDesc_pairwise (l : List TreeNode) :
    (sortDesc l).Pairwise (fun a b => b.cpu ≤ a.cpu) := by
  induction l with
  | nil => simp [sortDesc]
  | cons x xs ih => exact insertDesc_pairwise x (sortDesc xs) ih

/-- Stability of the insertion step: among nodes of one fixed CPU value the
insertion either prepends the new node (when it has that value) or leaves the
subsequence untouched, because the node only moves past strictly larger CPU
values. -/
theorem filter_insertDesc (x : TreeNode) (l : List TreeNode) (c : Rat) :
    (insertDesc x l).filter (fun n => decide (n.cpu = c))
      = if x.cpu = c then x :: l.filter (fun n => decide (n.cpu = c))
        else l.filter (fun n => decide (n.cpu = c)) := by
  induction l with
  | nil =>
    rw [insertDesc]
    by_cases hx : x.cpu = c
    · simp [hx]
    · simp [hx]
  | cons z zs ih =>
    rw [insertDesc]
    by_cases h : x.cpu < z.cpu
    · rw [if_pos h]
      by_cases hx : x.cpu = c
      · have hz : ¬ z.cpu = c := by
          intro hzc
          rw [← hx] at hzc
          exact absurd hzc (ne_of_gt h)
        simp [List.filter_cons, hz, ih, hx]
      · simp [List.filter_cons, ih, hx]
    · rw [if_neg h]
      by_cases hx : x.cpu = c
      · simp [List.filter_cons, hx]
      · simp [List.filter_cons, hx]

/-- Stability of the sort: the subsequence of nodes having any fixed CPU
value is exactly the same, in the same order, before and after sorting. -/
theorem filter_sortDesc (l : List TreeNode) (c : Rat) :
    (sortDesc l).filter (fun n => decide (n.cpu = c))
      = l.filter (fun n => decide (n.cpu = c)) := by
  induction l with
  | nil => rfl
  | cons x xs ih =>
    rw [sortDesc, filter_insertDesc]
    by_cases hx : x.cpu = c
    · simp [List.filter_cons, hx, ih]
    · simp [List.filter_cons, hx, ih]

theorem filter_map_buildNode (procs : List ProcessInfo) (allProcesses : List PsDesc)
    (k : Nat) (l : List ProcessInfo) (c : Rat) :
    (((l.map (buildNode procs allProcesses k)).filter
        (fun n => decide (n.cpu = c))).map TreeNode.pid)
      = ((l.filter (fun q => decide (q.cpu = c))).map ProcessInfo.pid) := by
  induction l with
  | nil => rfl
  | cons q rest ih =>
    simp only [List.map_cons, List.filter_cons, buildNode_cpu]
    by_cases hq : q.cpu = c
    · simp [hq, buildNode_pid, ih]
    · simp [hq, ih]

/-- Every node in the pre-order of a built tree either has an empty children
list (fuel exhausted, reachable only through parent-id cycles) or carries
exactly the stably-CPU-sorted children built from its pid's child processes. -/
theorem buildNode_shape (procs : List ProcessInfo) (allProcesses : List PsDesc) :
    ∀ fuel (p : ProcessInfo), ∀ n ∈ preorder (buildNode procs allProcesses fuel p),
      n.children = [] ∨ ∃ k, n.children
        = sortDesc ((childProcs procs allProcesses n.pid).map
            (buildNode procs allProcesses k)) := by
  intro fuel
  induction fuel with
  | zero =>
    intro p n hn
    rw [buildNode, preorder_mk] at hn
    rcases List.mem_cons.mp hn with rfl | hn2
    · left; rfl
    · simp at hn2
  | succ k ih =>
    intro p n hn
    rw [buildNode, preorder_mk] at hn
    rcases List.mem_cons.mp hn with rfl | hn2
    · right
      exact ⟨k, rfl⟩
    · obtain ⟨ch, hchmem, hn3⟩ := List.mem_flatMap.mp hn2
      rw [mem_sortDesc] at hchmem
      obtain ⟨q, hq, rfl⟩ := List.mem_map.mp hchmem
      exact ih q n hn3

/-- **C8** — resource-ranked forest: the root list and every node's children
list in the built forest are sorted by descending CPU, and nodes with equal
CPU keep their discovery order — stated for the root list as equality of the
equal-CPU subsequences with the discovery-ordered root processes, and for
children lists as those subsequences embedding, in order, into the
discovery-ordered child processes of the node's pid. -/
theorem claim_C8_sorted_stable (procs : List ProcessInfo) (allProcesses : List PsDesc)
    (hnd : (procs.map ProcessInfo.pid).Nodup) :
    ((buildProcessTree procs allProcesses).Pairwise (fun a b => b.cpu ≤ a.cpu)) ∧
    (∀ r ∈ buildProcessTree procs allProcesses, ∀ n ∈ preorder r,
      n.children.Pairwise (fun a b => b.cpu ≤ a.cpu)) ∧
    (∀ c : Rat,
      (((buildProcessTree procs allProcesses).filter
          (fun n => decide (n.cpu = c))).map TreeNode.pid)
        = (((rootProcs procs allProcesses).filter
            (fun q => decide (q.cpu = c))).map ProcessInfo.pid)) ∧
    (∀ r ∈ buildProcessTree procs allProcesses, ∀ n ∈ preorder r, ∀ c : Rat,
      ((n.children.filter (fun x => decide (x.cpu = c))).map TreeNode.pid).Sublist
        (((childProcs procs allProcesses n.pid).filter
            (fun q => decide (q.cpu = c))).map ProcessInfo.pid)) := by
  refine ⟨?_, ?_, ?_, ?_⟩
  · rw [buildProcessTree]
    exact sortDesc_pairwise _
  · intro r hr n hn
    rw [buildProcessTree, mem_sortDesc] at hr
    obtain ⟨p, hp, rfl⟩ := List.mem_map.mp hr
    rcases buildNode_shape procs allProcesses _ p n hn with h | ⟨k, h⟩
    · rw [h]
      exact List.Pairwise.nil
    · rw [h]
      exact sortDesc_pairwise _
  · intro c
    rw [buildProcessTree, filter_sortDesc, filter_map_buildNode]
  · intro r hr n hn c
    rw [buildProcessTree, mem_sortDesc] at hr
    obtain ⟨p, hp, rfl⟩ := List.mem_map.mp hr
    rcases buildNode_shape procs allProcesses _ p n hn with h | ⟨k, h⟩
    · rw [h]
      simp
    · rw [h, filter_sortDesc, filter_map_buildNode]

theorem claim_C8_witness :
    ((buildProcessTree procsDemo allDemo).Pairwise (fun a b => b.cpu ≤ a.cpu)) ∧
    (∀ r ∈ buildProcessTree procsDemo allDemo, ∀ n ∈ preorder r,
      n.children.Pairwise (fun a b => b.cpu ≤ a.cpu)) ∧
    (∀ c : Rat,
      (((buildProcessTree procsDemo allDemo).filter
          (fun n => decide (n.cpu = c))).map TreeNode.pid)
        = (((rootProcs procsDemo allDemo).filter
            (fun q => decide (q.cpu = c))).map ProcessInfo.pid)) ∧
    (∀ r ∈ buildProcessTree procsDemo allDemo, ∀ n ∈ preorder r, ∀ c : Rat,
      ((n.children.filter (fun x => decide (x.cpu = c))).map TreeNode.pid).Sublist
        (((childProcs procsDemo allDemo n.pid).filter
            (fun q => decide (q.cpu = c))).map ProcessInfo.pid)) :=
  claim_C8_sorted_stable procsDemo allDemo (by decide)

/-! ## Extractor lemmas for C4 -/

theorem matchQuoted_none (q : Char) (cs : List Char) (h : q ∉ cs) :
    matchQuoted q cs = none := by
  induction cs with
  | nil => rfl
  | cons c rest ih =>
    have hc : ¬ c = q := fun he => h (he ▸ List.mem_cons_self c rest)
    rw [matchQuoted, if_neg hc]
    exact ih (fun hm => h (List.mem_cons_of_mem c hm))

theorem takeWhile_all (p : Char → Bool) (l : List Char) (h : ∀ c ∈ l, p c = true) :
    l.takeWhile p = l := by
  induction l with
  | nil => rfl
  | cons c rest ih =>
    rw [List.takeWhile_cons, h c (List.mem_cons_self c rest)]
    rw [ih (fun x hx => h x (List.mem_cons_of_mem c hx))]
    simp

theorem takeWhile_append_stop (p : Char → Bool) (l1 : List Char) (x : Char)
    (l2 : List Char) (h1 : ∀ c ∈ l1, p c = true) (hx : p x = false) :
    (l1 ++ x :: l2).takeWhile p = l1 := by
  induction l1 with
  | nil => simp [List.takeWhile_cons, hx]
  | cons c rest ih =>
    rw [List.cons_append, List.takeWhile_cons, h1 c (List.mem_cons_self c rest)]
    rw [ih (fun y hy => h1 y (List.mem_cons_of_mem c hy))]
    simp

theorem dropWhile_append_stop (p : Char → Bool) (l1 : List Char) (x : Char)
    (l2 : List Char) (h1 : ∀ c ∈ l1, p c = true) (hx : p x = false) :
    (l1 ++ x :: l2).dropWhile p = x :: l2 := by
  induction l1 with
  | nil => simp [List.dropWhile_cons, hx]
  | cons c rest ih =>
    rw [List.cons_append, List.dropWhile_cons]
    rw [h1 c (List.mem_cons_self c rest)]
    simp only [if_pos]
    exact ih (fun y hy => h1 y (List.mem_cons_of_mem c hy))

theorem splitAtLastDot_append (body ext : List Char) (hext : '.' ∉ ext) :
    splitAtLastDot (body ++ '.' :: ext) = some (body, ext) := by
  have hrev : (body ++ '.' :: ext).reverse = ext.reverse ++ '.' :: body.reverse := by
    simp
  have hall : ∀ c ∈ ext.reverse, (c ≠ '.' : Bool) = true := by
    intro c hc
    simp only [ne_eq, decide_eq_true_eq]
    exact fun he => hext (he ▸ List.mem_reverse.mp hc)
  have hdot : (('.' : Char) ≠ '.' : Bool) = false := by decide
  rw [splitAtLastDot]
  simp only [hrev]
  rw [takeWhile_append_stop _ _ _ _ hall hdot, dropWhile_append_stop _ _ _ _ hall hdot]
  simp

theorem lowerStarts_iff (e : List Char) : ∀ l : List Char,
    (lowerStarts e l = true ↔ (l.map Char.toLower).take e.length = e ∧ e.length ≤ l.length) := by
  induction e with
  | nil =>
    intro l
    simp [lowerStarts]
  | cons a as ih =>
    intro l
    cases l with
    | nil =>
      exact ⟨fun hl => absurd hl Bool.false_ne_true, fun hr => absurd hr.2 (by simp)⟩
    | cons b bs =>
      rw [lowerStarts]
      simp only [Bool.and_eq_true, decide_eq_true_eq, List.map_cons, List.length_cons,
        List.take_succ_cons, List.cons.injEq, ih bs]
      constructor
      · rintro ⟨h1, h2, h3⟩
        exact ⟨⟨h1.symm, h2⟩, Nat.succ_le_succ h3⟩
      · rintro ⟨⟨h1, h2⟩, h3⟩
        exact ⟨h1.symm, h2, Nat.le_of_succ_le_succ h3⟩

/-- With the lowercase image of the input known, a case-insensitive
alternative test becomes a concrete computation. -/
theorem lowerStarts_eqv (e ext E : List Char) (hmap : ext.map Char.toLower = E) :
    lowerStarts e ext = (E.take e.length == e && decide (e.length ≤ E.length)) := by
  have hlen : ext.length = E.length := by rw [← hmap, List.length_map]
  rcases hb : (E.take e.length == e && decide (e.length ≤ E.length)) with _ | _
  · rcases hl : lowerStarts e ext with _ | _
    · rfl
    · exfalso
      have := (lowerStarts_iff e ext).mp hl
      rw [hmap, hlen] at this
      rcases Bool.and_eq_false_iff.mp hb with h | h
      · exact absurd this.1 (by simpa using h)
      · exact absurd this.2 (by simpa using h)
  · have : lowerStarts e ext = true := by
      refine (lowerStarts_iff e ext).mpr ?_
      simp only [Bool.and_eq_true, beq_iff_eq, decide_eq_true_eq] at hb
      rw [hmap, hlen]
      exact hb
    rw [this]

/-- The 12 recognized extensions that are not shadowed by an earlier,
strictly shorter alternative of the alternation (`pyw`, `jsx`, `tsx` are
shadowed by `py`, `js`, `ts`). -/
def nsExts : List (List Char) :=
  [['p','y'], ['j','s'], ['t','s'], ['m','j','s'], ['c','j','s'], ['r','b'],
   ['p','h','p'], ['p','l'], ['s','h'], ['p','s','1'], ['b','a','t'], ['c','m','d']]

/-- On an unshadowed extension the ordered alternation consumes the whole
extension. -/
theorem altMatch_exact (ext : List Char) (h : (ext.map Char.toLower) ∈ nsExts) :
    altMatch ext = some ext.length := by
  have hlen : ext.length = (ext.map Char.toLower).length := (List.length_map _ _).symm
  simp only [nsExts, List.mem_cons, List.not_mem_nil, or_false] at h
  rcases h with h|h|h|h|h|h|h|h|h|h|h|h <;>
    (rw [h] at hlen
     simp [altMatch, exts, List.find?, lowerStarts_eqv _ ext _ h, hlen])

theorem nsExts_no_dot (E : List Char) (hE : E ∈ nsExts) : '.' ∉ E := by
  fin_cases hE <;> decide

/-- Quote characters and whitespace lower to themselves, so a character whose
lowercase image occurs in a recognized extension is a plain class character. -/
theorem notSQ_of_toLower_mem (c : Char) (E : List Char) (hE : E ∈ nsExts)
    (hc : c.toLower ∈ E) : notSQ c = true := by
  by_contra hns
  have hns2 : notSQ c = false := by
    revert hns
    cases notSQ c <;> simp
  have hbad : wsJS c = true ∨ c = '"' ∨ c = '\'' := by
    have h2 : wsJS c = false → ¬ c = '"' → c = '\'' := by simpa [notSQ] using hns2
    by_cases hw : wsJS c = true
    · exact Or.inl hw
    · by_cases hq : c = '"'
      · exact Or.inr (Or.inl hq)
      · refine Or.inr (Or.inr (h2 ?_ hq))
        revert hw
        cases wsJS c <;> simp
  have hbad2 : c = ' ' ∨ c = '\t' ∨ c = '\n' ∨ c = '\x0b' ∨ c = '\x0c' ∨ c = '\r'
      ∨ c = '"' ∨ c = '\'' := by
    rcases hbad with hw | hq | hq
    · have := by simpa [wsJS] using hw
      tauto
    · tauto
    · tauto
  rcases hbad2 with rfl|rfl|rfl|rfl|rfl|rfl|rfl|rfl <;>
    (fin_cases hE <;> revert hc <;> decide)

/-- When the alternation succeeds on the full remainder, the greedy search
consumes exactly `body ++ '.' :: ext`. -/
theorem greedy_full (body ext : List Char) (hbody : body ≠ []) (hdot : '.' ∉ ext)
    (halt : altMatch ext = some ext.length) :
    greedy (body ++ '.' :: ext) = some (body ++ '.' :: ext) := by
  have hsplit := splitAtLastDot_append body ext hdot
  have hlen : (body ++ '.' :: ext).length = (body.length + ext.length) + 1 := by
    simp
    omega
  rw [greedy, hlen]
  simp [greedyAux, hsplit, halt, hbody, List.take_length]

theorem driveHere_succeeds (d sep : Char) (body ext post : List Char)
    (hd : d.isAlpha = true) (hsep : sep = '\\' ∨ sep = '/')
    (hbody : body ≠ []) (hbodyC : ∀ c ∈ body, notSQ c = true)
    (hextC : ∀ c ∈ ext, notSQ c = true) (hdot : '.' ∉ ext)
    (halt : altMatch ext = some ext.length)
    (hpost : post = [] ∨ ∃ w rest2, post = w :: rest2 ∧ notSQ w = false) :
    driveHere (d :: ':' :: sep :: ((body ++ '.' :: ext) ++ post))
      = some (d :: ':' :: sep :: (body ++ '.' :: ext)) := by
  have hallBody : ∀ c ∈ body ++ '.' :: ext, notSQ c = true := by
    intro c hcm
    rcases List.mem_append.mp hcm with h | h
    · exact hbodyC c h
    · rcases List.mem_cons.mp h with rfl | h2
      · decide
      · exact hextC c h2
  have hrun : ((body ++ '.' :: ext) ++ post).takeWhile notSQ = body ++ '.' :: ext := by
    rcases hpost with rfl | ⟨w, rest2, rfl, hw⟩
    · rw [List.append_nil]
      exact takeWhile_all _ _ hallBody
    · exact takeWhile_append_stop _ _ _ _ hallBody hw
  rw [driveHere, if_pos ⟨hd, rfl, hsep⟩, hrun, greedy_full body ext hbody hdot halt]
  rfl

theorem driveHere_none_of_second (c : Char) (l : List Char)
    (h : ∀ x, l.head? = some x → x ≠ ':') : driveHere (c :: l) = none := by
  cases l with
  | nil => rfl
  | cons x l2 =>
    cases l2 with
    | nil => rfl
    | cons y l3 =>
      rw [driveHere, if_neg (fun hcond => h x rfl hcond.2.1)]

theorem matchDrive_append (pre rest : List Char) (hpre : ∀ x ∈ pre, x ≠ ':')
    (hhead : ∀ x, rest.head? = some x → x ≠ ':') :
    matchDrive (pre ++ rest) = matchDrive rest := by
  induction pre with
  | nil => rfl
  | cons c pre2 ih =>
    rw [List.cons_append, matchDrive]
    have hdh : driveHere (c :: (pre2 ++ rest)) = none := by
      apply driveHere_none_of_second
      intro x hx
      cases pre2 with
      | nil =>
        exact hhead x (by simpa using hx)
      | cons p2 pre3 =>
        have hxp : p2 = x := by simpa using hx
        exact hxp ▸ hpre p2 (List.mem_cons_of_mem c (List.mem_cons_self p2 pre3))
    rw [hdh]
    exact ih (fun x hx => hpre x (List.mem_cons_of_mem c hx))

theorem dropWhile_eq_self (p : Char → Bool) (l : List Char)
    (h : ∀ c ∈ l, p c = false) : l.dropWhile p = l := by
  cases l with
  | nil => rfl
  | cons c rest =>
    rw [List.dropWhile_cons, h c (List.mem_cons_self c rest)]
    simp

theorem stripTrailingQuotes_eq_self (l : List Char)
    (h : ∀ c ∈ l, (c = '"' || c = '\'') = false) : stripTrailingQuotes l = l := by
  rw [stripTrailingQuotes,
    dropWhile_eq_self _ _ (fun c hc => h c (List.mem_reverse.mp hc)),
    List.reverse_reverse]

/-- **C4 counterexample** — a command line that is nothing but an absolute
drive-letter path ending in the recognized extension `pyw`, on which extract
does not return the path exactly: the regex alternation has no anchor and
tries `py` before `pyw`, so the final `w` is dropped. -/
theorem claim_C4_counterexample :
    extractScriptName (some "K:\\app\\main.pyw") = some "K:\\app\\main.py" ∧
    extractScriptName (some "K:\\app\\main.pyw") ≠ some "K:\\app\\main.pyw" := by
  refine ⟨by decide, by decide⟩

/-- **C4 amended** — for every command line `pre ++ d:SEP body.ext ++ post`
containing a drive-letter absolute path whose extension is a recognized one
not shadowed by an earlier alternation branch (not `pyw`/`jsx`/`tsx`), where
no quote character occurs anywhere, no colon occurs before the path, the path
body consists of plain path characters, and the path is followed by
whitespace or the end of the line, `extract` returns that absolute path
exactly; and in particular the spec's scenario
`"C:\Python39\python.exe" K:\app\main.py --port 8080` (whose prefix does
contain quotes and a colon, but no quoted span or earlier drive-letter start
ends in a recognized extension) extracts `K:\app\main.py`. -/
theorem claim_C4_drive_path_exact (pre : List Char) (d sep : Char)
    (body ext post : List Char)
    (hd : d.isAlpha = true) (hsep : sep = '\\' ∨ sep = '/')
    (hbody : body ≠ []) (hbodyC : ∀ c ∈ body, notSQ c = true)
    (hENS : ext.map Char.toLower ∈ nsExts)
    (hpre : ':' ∉ pre) (hpreQ : '"' ∉ pre ∧ '\'' ∉ pre)
    (hpostQ : '"' ∉ post ∧ '\'' ∉ post)
    (hpost : post = [] ∨ ∃ w rest2, post = w :: rest2 ∧ wsJS w = true) :
    extractScriptName
        (some (String.mk (pre ++ d :: ':' :: sep :: ((body ++ '.' :: ext) ++ post))))
      = some (String.mk (d :: ':' :: sep :: (body ++ '.' :: ext))) ∧
    extractScriptName (some "\"C:\\Python39\\python.exe\" K:\\app\\main.py --port 8080")
      = some "K:\\app\\main.py" := by
  refine ⟨?_, by decide⟩
  have hextC : ∀ c ∈ ext, notSQ c = true := fun c hc =>
    notSQ_of_toLower_mem c (ext.map Char.toLower) hENS (List.mem_map_of_mem _ hc)
  have hdot : '.' ∉ ext := by
    intro hdm
    exact absurd (List.mem_map_of_mem Char.toLower hdm)
      (by intro hmm; exact absurd hmm (by have := nsExts_no_dot _ hENS; simpa using this))
  have halt : altMatch ext = some ext.length := altMatch_exact ext hENS
  have hdne : d ≠ ':' := by
    intro he
    rw [he] at hd
    exact absurd hd (by decide)
  -- the full command line contains no quote of either flavour
  have hnotin : ∀ q : Char, q ∉ pre → q ∉ post → notSQ q = false → q ≠ ':' →
      q.isAlpha = false → q ≠ '\\' → q ≠ '/' →
      q ∉ pre ++ d :: ':' :: sep :: ((body ++ '.' :: ext) ++ post) := by
    intro q h1 h2 h3 h4 h5 h6 h7 hmem
    simp only [List.mem_append, List.mem_cons] at hmem
    rcases hmem with h | h | h | h | h
    · exact h1 h
    · rw [h] at h5
      rw [h5] at hd
      exact absurd hd (by simp)
    · exact h4 h
    · rcases hsep with rfl | rfl
      · exact h6 h
      · exact h7 h
    · rcases h with h | h
      · rcases h with h | h
        · rw [hbodyC q h] at h3
          exact absurd h3 (by simp)
        · rcases h with rfl | h
          · exact absurd h3 (by decide)
          · rw [hextC q h] at h3
            exact absurd h3 (by simp)
      · exact h2 h
  have hq1 : matchQuoted '"'
      (pre ++ d :: ':' :: sep :: ((body ++ '.' :: ext) ++ post)) = none :=
    matchQuoted_none _ _
      (hnotin '"' hpreQ.1 hpostQ.1 (by decide) (by decide) (by decide) (by decide) (by decide))
  have hq2 : matchQuoted '\''
      (pre ++ d :: ':' :: sep :: ((body ++ '.' :: ext) ++ post)) = none :=
    matchQuoted_none _ _
      (hnotin '\'' hpreQ.2 hpostQ.2 (by decide) (by decide) (by decide) (by decide) (by decide))
  have hpost2 : (body ++ '.' :: ext) ++ post = (body ++ '.' :: ext) ++ post := rfl
  have hdrive : matchDrive (pre ++ d :: ':' :: sep :: ((body ++ '.' :: ext) ++ post))
      = some (d :: ':' :: sep :: (body ++ '.' :: ext)) := by
    rw [matchDrive_append pre _ (fun x hx he => hpre (he ▸ hx))
      (fun x hx => by simp at hx; exact hx ▸ hdne)]
    rw [matchDrive]
    rw [driveHere_succeeds d sep body ext post hd hsep hbody hbodyC hextC hdot halt ?hp]
    case hp =>
      rcases hpost with rfl | ⟨w, rest2, rfl, hw⟩
      · exact Or.inl rfl
      · refine Or.inr ⟨w, rest2, rfl, ?_⟩
        simp [notSQ, hw]
  -- the returned path ends in an extension character, so the trailing-quote
  -- cleanup is the identity
  have hstrip : stripTrailingQuotes (d :: ':' :: sep :: (body ++ '.' :: ext))
      = d :: ':' :: sep :: (body ++ '.' :: ext) := by
    refine stripTrailingQuotes_eq_self _ ?_
    intro c hc
    simp only [List.mem_cons, List.mem_append] at hc
    have hnq : c ≠ '"' ∧ c ≠ '\'' := by
      rcases hc with rfl | rfl | rfl | h
      · constructor <;> (intro he; rw [he] at hd; exact absurd hd (by decide))
      · exact ⟨by decide, by decide⟩
      · rcases hsep with rfl | rfl
        · exact ⟨by decide, by decide⟩
        · exact ⟨by decide, by decide⟩
      · rcases h with h | h
        · have := hbodyC c h
          constructor <;> (intro he; rw [he] at this; exact absurd this (by decide))
        · rcases h with rfl | h
          · exact ⟨by decide, by decide⟩
          · have := hextC c h
            constructor <;> (intro he; rw [he] at this; exact absurd this (by decide))
    simp [hnq.1, hnq.2]
  have hunfold : extractScriptName
      (some (String.mk (pre ++ d :: ':' :: sep :: ((body ++ '.' :: ext) ++ post))))
      = (((((matchQuoted '"'
              (pre ++ d :: ':' :: sep :: ((body ++ '.' :: ext) ++ post))).orElse
          (fun _ => matchQuoted '\''
              (pre ++ d :: ':' :: sep :: ((body ++ '.' :: ext) ++ post)))).orElse
          (fun _ => matchDrive
              (pre ++ d :: ':' :: sep :: ((body ++ '.' :: ext) ++ post)))).orElse
          (fun _ => matchUnix
              (pre ++ d :: ':' :: sep :: ((body ++ '.' :: ext) ++ post)))).orElse
          (fun _ => matchBare
              (pre ++ d :: ':' :: sep :: ((body ++ '.' :: ext) ++ post)))).map
        (fun m => String.mk (stripTrailingQuotes m)) := rfl
  rw [hunfold, hq1]
  simp only [hq2, hdrive, Option.orElse]
  simp [hstrip]

theorem claim_C4_witness :
    extractScriptName (some "run K:\\app\\main.py -x") = some "K:\\app\\main.py" :=
  (claim_C4_drive_path_exact ['r', 'u', 'n', ' '] 'K' '\\'
    ['a', 'p', 'p', '\\', 'm', 'a', 'i', 'n'] ['p', 'y'] [' ', '-', 'x']
    (by decide) (Or.inl rfl) (by decide) (by decide) (by decide) (by decide)
    ⟨by decide, by decide⟩ ⟨by decide, by decide⟩
    (Or.inr ⟨' ', ['-', 'x'], rfl, by decide⟩)).1
